import Mathlib

/-!
Verification of the lazyrepo manifest builder and runner against its source.

Shallow embedding of:
- src/manifest/computeManifest.js (the manifest computation, including
  compareManifestTypes and the type order table),
- src/config.js (TaskConfig getters, Config.getBaseCacheConfig, getTaskKey,
  getConfigFromDir, extractGlobPattern),
- src/commands/run.js (the run command exit behaviour).

Components of the repository that are not part of the provided source
(ManifestConstructor, getInputFiles, hash.js, uniq.js, the logger and the
task scheduler) are modelled from the specification; each such definition
carries a doc comment starting with "Modelled from the spec:".
JS machine details kept: mtimes are compared as strings (the code stringifies
stat.mtimeMs), JS Array.prototype.sort on strings is modelled by insertion sort
on Lean strings, and JS indexOf returning -1 is modelled explicitly.
-/

namespace Lazyrepo

/-! ## Hashing (modelled: hash.js is not under src/) -/

/-- Modelled from the spec: hash.js (hashString) is not under src/.  The spec
only requires a deterministic string hash with a fixed width; we use a 64-bit
polynomial rolling hash over the characters. -/
def hashString (s : String) : Nat :=
  s.data.foldl (fun h c => (h * 31 + c.toNat) % 18446744073709551616) 5381

/-- Modelled from the spec: hash.js (hashFile) is not under src/.  File content
is modelled as a string; hashFile hashes the content with the same algorithm
as hashString (spec section 4.1: the same algorithm for files and strings). -/
def hashFile (content : String) : Nat := hashString content

/-! ## Manifest entries and the codec -/

/-- A manifest entry (type, id, hash, optional metadata); spec section 3. -/
structure ManifestEntry where
  type : String
  id : String
  hash : Nat
  meta : Option String
deriving DecidableEq

/-- Line format from spec section 4.2: type, id, hash and optional metadata
separated by tabs, newline-terminated. -/
def serializeEntry (e : ManifestEntry) : String :=
  e.type ++ "\t" ++ e.id ++ "\t" ++ toString e.hash ++
    (match e.meta with
     | Option.some m => "\t" ++ m
     | Option.none => "") ++ "\n"

def serializeManifest (m : List ManifestEntry) : String :=
  String.join (m.map serializeEntry)

/-- Modelled from the spec: the aggregate hash of a manifest is the hash of the
concatenation of its serialized lines (spec section 3, invariants). -/
def manifestHash (m : List ManifestEntry) : Nat :=
  hashString (serializeManifest m)

/-! ## The type order table and compareManifestTypes
(src/manifest/computeManifest.js lines 201-223) -/

def typesUpstreamTaskInputs : String := "upstream task inputs"
def typesDependencyTaskInputs : String := "dependency task inputs"
def typesEnvVar : String := "env var"
def typesFile : String := "file"

/-- The order array of the source (line 208). -/
def order : List String :=
  [typesUpstreamTaskInputs, typesDependencyTaskInputs, typesEnvVar, typesFile]

/-- JS Array.prototype.indexOf: index of the first occurrence, -1 if absent. -/
def jsIndexOf (l : List String) (s : String) : Int :=
  match l.findIdx? (fun x => x == s) with
  | Option.some i => (i : Int)
  | Option.none => -1

/-- compareManifestTypes from the source (lines 216-223). -/
def compareManifestTypes (a b : String) : Int :=
  let aIndex := jsIndexOf order a
  let bIndex := jsIndexOf order b
  if aIndex = bIndex then 0
  else if aIndex < bIndex then -1 else 1

/-! ## JS sort and uniq -/

def insertSorted (x : String) : List String → List String
  | [] => [x]
  | y :: ys => if x ≤ y then x :: y :: ys else y :: insertSorted x ys

/-- Model of JS Array.prototype.sort on an array of strings (insertion sort;
JS string comparison agrees with the lexicographic order for the paths, keys
and env var names that occur in manifests). -/
def sortStrings : List String → List String
  | [] => []
  | x :: xs => insertSorted x (sortStrings xs)

def uniqAux (seen : List String) : List String → List String
  | [] => []
  | x :: xs => if x ∈ seen then uniqAux seen xs else x :: uniqAux (x :: seen) xs

/-- Modelled from the spec: uniq.js is not under src/; the spec (section 4.6
step 2c) takes the set-unique of a list.  Keeps first occurrences. -/
def uniq (l : List String) : List String := uniqAux [] l

/-! ## Paths and task keys (src/config.js) -/

/-- Strip a leading character sequence, or return none when it is not a
leading sequence. -/
def dropLeading : List Char → List Char → Option (List Char)
  | [], l => Option.some l
  | _ :: _, [] => Option.none
  | p :: ps, c :: cs => if p = c then dropLeading ps cs else Option.none

/-- Modelled: Node path.relative restricted to the shapes the runner uses
(a directory equal to the root or nested under it). -/
def relativePath (root dir : String) : String :=
  if dir = root then ""
  else
    match dropLeading (root.data ++ ['/']) dir.data with
    | Option.some rest => String.mk rest
    | Option.none => dir

/-- Config.getTaskKey (src/config.js lines 266-269):
"taskName::relativeDir", with "<rootDir>" when the relative path is empty. -/
def getTaskKey (workspaceRoot taskDir taskName : String) : String :=
  let r := relativePath workspaceRoot taskDir
  taskName ++ "::" ++ (if r = "" then "<rootDir>" else r)

/-! ## Raw config values and the TaskConfig getters (src/config.js) -/

/-- Raw glob config as written in a lazy.config file: either an array of
patterns or an object with optional include and exclude lists. -/
inductive RawGlob
  | arr (patterns : List String)
  | obj (inc : Option (List String)) (exc : Option (List String))
deriving DecidableEq

/-- The defaulted glob pair returned by extractGlobPattern. -/
structure GlobSpec where
  inc : List String
  exc : List String
deriving DecidableEq

/-- extractGlobPattern (src/config.js lines 160-175). -/
def extractGlobPattern : Option RawGlob → GlobSpec
  | Option.none => ⟨["**/*"], []⟩
  | Option.some (RawGlob.arr ps) => ⟨ps, []⟩
  | Option.some (RawGlob.obj i e) => ⟨i.getD ["**/*"], e.getD []⟩

/-- The raw cache field of a task config: the string "none", or an object
with all fields optional (undefined in JS is Option.none here). -/
inductive RawCache
  | noneLiteral
  | obj (envInputs : Option (List String))
        (inheritsInputFromDependencies : Option Bool)
        (inputs : Option RawGlob) (outputs : Option RawGlob)
        (usesOutputFromDependencies : Option Bool)
deriving DecidableEq

/-- The defaulted cache object produced by the TaskConfig cache getter. -/
structure CacheConfig where
  envInputs : List String
  inheritsInputFromDependencies : Bool
  inputs : GlobSpec
  outputs : GlobSpec
  usesOutputFromDependencies : Bool
deriving DecidableEq

/-- Result of the TaskConfig cache getter: the distinguished "none", or a
cache object with defaults filled in. -/
inductive CacheSetting
  | noCache
  | cfg (c : CacheConfig)
deriving DecidableEq

/-- The TaskConfig cache getter (src/config.js lines 139-152): "none" is
passed through; otherwise every field is defaulted (envInputs [], the two
boolean flags true, globs via extractGlobPattern).  A missing cache field
(undefined) also takes the object branch with all defaults. -/
def cacheGetter : Option RawCache → CacheSetting
  | Option.some RawCache.noneLiteral => CacheSetting.noCache
  | Option.some (RawCache.obj e i inp out u) =>
      CacheSetting.cfg ⟨e.getD [], i.getD true,
        extractGlobPattern inp, extractGlobPattern out, u.getD true⟩
  | Option.none =>
      CacheSetting.cfg ⟨[], true,
        extractGlobPattern Option.none, extractGlobPattern Option.none, true⟩

/-- Raw baseCacheConfig section of a lazy.config file. -/
structure BaseCacheRaw where
  includes : Option (List String)
  excludes : Option (List String)
  envInputs : Option (List String)
deriving DecidableEq

/-- The defaulted base cache config. -/
structure BaseCacheConfig where
  includes : List String
  excludes : List String
  envInputs : List String
deriving DecidableEq

/-- Config.getBaseCacheConfig (src/config.js lines 275-290), applied to the
already-resolved raw config for the task dir (the dir resolution between the
package config and the root config is plumbing outside this embedding).
Defaults: includes to the two root lockfile/config patterns, excludes and
envInputs to the empty list. -/
def getBaseCacheConfig (raw : Option BaseCacheRaw) : BaseCacheConfig :=
  ⟨((raw.bind (fun r => r.includes)).getD
      ["<rootDir>/\x7byarn.lock,pnpm-lock.yaml,package-lock.json\x7d",
       "<rootDir>/lazy.config.*"]),
   (raw.bind (fun r => r.excludes)).getD [],
   (raw.bind (fun r => r.envInputs)).getD []⟩

/-! ## Tasks, dependency configs and the manifest computation context -/

/-- One runsAfter entry value: inheritsInput (undefined behaves as false under
the truthiness tests of the source) and usesOutput, where undefined must stay
distinct from false because the source tests usesOutput === false. -/
structure DepConfig where
  inheritsInput : Bool
  usesOutput : Option Bool
deriving DecidableEq

/-- The slice of a scheduled task that computeManifest reads from an upstream
task: its input manifest cache key (set once its manifest is built) and its
captured output files. -/
structure DepTask where
  inputManifestCacheKey : Option Nat
  outputFiles : List String
deriving DecidableEq

/-- The stat result for one input file: mtimeMs already stringified (the
source only ever uses String(stat.mtimeMs)) and the file content. -/
structure FileStat where
  mtimeMs : String
  content : String
deriving DecidableEq

/-- Everything computeManifest ({tasks, task}) reads, flattened into one
record.  Function-valued fields model lookups into the task graph, the
process environment and the file system.  getInputFiles is modelled from the
spec (getInputFiles.js is not under src/): it maps the flattened extra files
to the sorted deduplicated input file list, or none. -/
structure ScheduledTaskCtx where
  workspaceRoot : String
  taskDir : String
  taskName : String
  /-- task.taskConfig._config.cache (the raw value the cache getter reads). -/
  rawCache : Option RawCache
  /-- task.taskConfig.runType, already defaulted to "dependent" by the getter. -/
  taskRunType : String
  /-- Object.entries(task.taskConfig.runsAfter), in entry order. -/
  runsAfter : List (String × DepConfig)
  /-- Whether getTaskConfig(task.taskDir, otherTaskName).runType is "top-level". -/
  runTypeIsTopLevel : String → Bool
  /-- tasks.allTasks, keyed by task key. -/
  allTasks : String → Option DepTask
  /-- task.packageDetails?.localDeps. -/
  localDeps : Option (List String)
  /-- tasks.config.repoDetails.packagesByName[name].dir. -/
  packageDirOf : String → String
  /-- The raw baseCacheConfig resolved for task.taskDir. -/
  baseCacheConfigRaw : Option BaseCacheRaw
  /-- process.env. -/
  env : String → Option String
  /-- statSync plus the file content, for the input files. -/
  fileStat : String → FileStat
  /-- Modelled from the spec: getInputFiles.js is not under src/. -/
  getInputFiles : List String → Option (List String)
  manifestDirExists : Bool
  nextManifestDirExists : Bool
  diffDirExists : Bool

/-- The task key the runsAfter loop looks up for one entry (lines 256-262):
rooted at the workspace root for a top-level other task, at the task dir
otherwise. -/
def raKeyOf (ctx : ScheduledTaskCtx) (otherTaskName : String) : String :=
  getTaskKey ctx.workspaceRoot
    (if ctx.runTypeIsTopLevel otherTaskName then ctx.workspaceRoot else ctx.taskDir)
    otherTaskName

/-- State threaded through the runsAfter loop: manifest entries appended so
far and the pushed extraFiles lists. -/
structure RAState where
  entries : List ManifestEntry
  extraFiles : List (List String)
deriving DecidableEq

/-- One iteration of the runsAfter loop (lines 254-277).  Skips an entry with
falsy inheritsInput and usesOutput === false; throws on a missing top-level
task; silently skips a missing non-top-level task; throws when an inherited
upstream has no inputManifestCacheKey; otherwise appends the
"upstream task inputs" entry and pushes output files unless
usesOutput === false. -/
def processRunsAfterEntry (ctx : ScheduledTaskCtx) (st : RAState)
    (e : String × DepConfig) : Except String RAState :=
  if !e.2.inheritsInput && e.2.usesOutput == Option.some false then Except.ok st
  else
    let key := raKeyOf ctx e.1
    match ctx.allTasks key with
    | Option.none =>
        if ctx.runTypeIsTopLevel e.1 then
          Except.error ("Missing task: " ++ key ++ ".")
        else Except.ok st
    | Option.some depTask =>
        match (if e.2.inheritsInput then
                 match depTask.inputManifestCacheKey with
                 | Option.none =>
                     Except.error ("Missing inputManifestCacheKey for task: " ++ key ++ ".")
                 | Option.some k =>
                     Except.ok (st.entries ++ [⟨"upstream task inputs", key, k, Option.none⟩])
               else Except.ok st.entries : Except String (List ManifestEntry)) with
        | Except.error msg => Except.error msg
        | Except.ok entries1 =>
            Except.ok ⟨entries1,
              if e.2.usesOutput != Option.some false
              then st.extraFiles ++ [depTask.outputFiles]
              else st.extraFiles⟩

/-- The runsAfter loop over all entries. -/
def processRunsAfter (ctx : ScheduledTaskCtx) :
    RAState → List (String × DepConfig) → Except String RAState
  | st, [] => Except.ok st
  | st, e :: rest =>
      match processRunsAfterEntry ctx st e with
      | Except.error msg => Except.error msg
      | Except.ok st1 => processRunsAfter ctx st1 rest

/-- The guard and key list of the package-dependency inheritance block
(lines 279-291): active when runType is not "independent" and
cache?.inheritsInputFromDependencies ?? true holds; the keys are the local
dependency task keys, sorted. -/
def upstreamTaskKeys (ctx : ScheduledTaskCtx) : Option (List String) :=
  if ctx.taskRunType ≠ "independent" ∧
     (match cacheGetter ctx.rawCache with
      | CacheSetting.noCache => true
      | CacheSetting.cfg c => c.inheritsInputFromDependencies) = true then
    ctx.localDeps.map (fun deps =>
      sortStrings (deps.map (fun packageName =>
        getTaskKey ctx.workspaceRoot (ctx.packageDirOf packageName) ctx.taskName)))
  else Option.none

/-- The package-dependency loop (lines 292-301): silently skips keys without a
node, throws when the node has no inputManifestCacheKey, otherwise appends
the "upstream package inputs" entry. -/
def processPkgDeps (ctx : ScheduledTaskCtx) :
    List ManifestEntry → List String → Except String (List ManifestEntry)
  | entries, [] => Except.ok entries
  | entries, key :: rest =>
      match ctx.allTasks key with
      | Option.none => processPkgDeps ctx entries rest
      | Option.some depTask =>
          match depTask.inputManifestCacheKey with
          | Option.none =>
              Except.error ("Missing inputManifestCacheKey for task: " ++ key ++ ".")
          | Option.some k =>
              processPkgDeps ctx
                (entries ++ [⟨"upstream package inputs", key, k, Option.none⟩]) rest

/-- task.taskConfig.cache?.envInputs ?? [] as seen through the cache getter:
for cache "none" the optional chain yields undefined, hence []. -/
def taskEnvInputsOf (ctx : ScheduledTaskCtx) : List String :=
  match cacheGetter ctx.rawCache with
  | CacheSetting.noCache => []
  | CacheSetting.cfg c => c.envInputs

/-- allEnvVars (lines 304-308): sorted unique concatenation of the base cache
env inputs and the task cache env inputs. -/
def allEnvVars (ctx : ScheduledTaskCtx) : List String :=
  sortStrings (uniq ((getBaseCacheConfig ctx.baseCacheConfigRaw).envInputs ++
    taskEnvInputsOf ctx))

/-- The env var loop (lines 310-313): one entry per name, hashing the value
with the empty string substituted for an unset variable. -/
def envEntries (ctx : ScheduledTaskCtx) : List ManifestEntry :=
  (allEnvVars ctx).map (fun envVar =>
    ⟨"env var", envVar, hashString ((ctx.env envVar).getD ""), Option.none⟩)

/-- Find the previous manifest entry with the given type and id.  Modelled
from the spec: ManifestConstructor is not under src/; spec section 4.3 looks
up (type, id) in the previous manifest. -/
def lookupPrev (prev : List ManifestEntry) (t i : String) : Option ManifestEntry :=
  prev.find? (fun e => e.type == t && e.id == i)

/-- State of the file loop: entries appended so far, the numSkipped and
numHashed counters of the source, and the list of files whose content was
actually read and hashed (numHashed is its length). -/
structure FState where
  entries : List ManifestEntry
  numSkipped : Nat
  numHashed : Nat
  hashedFiles : List String
deriving DecidableEq

/-- The file loop (lines 324-337) over the already-sorted file list.  For each
file: stat it; if the previous manifest has a "file" entry with this id whose
metadata equals the current mtime string, copy its hash over
(copyLineOverIfMetaIsSame, modelled from spec section 4.3) and count it
skipped; otherwise hash the content and append a fresh entry. -/
def processFiles (ctx : ScheduledTaskCtx) (prev : Option (List ManifestEntry)) :
    FState → List String → FState
  | st, [] => st
  | st, file :: rest =>
      let stat := ctx.fileStat file
      let timestamp := stat.mtimeMs
      match lookupPrev (prev.getD []) "file" file with
      | Option.some e =>
          if e.meta == Option.some timestamp then
            processFiles ctx prev
              ⟨st.entries ++ [⟨"file", file, e.hash, Option.some timestamp⟩],
               st.numSkipped + 1, st.numHashed, st.hashedFiles⟩ rest
          else
            processFiles ctx prev
              ⟨st.entries ++ [⟨"file", file, hashFile stat.content, Option.some timestamp⟩],
               st.numSkipped, st.numHashed + 1, st.hashedFiles ++ [file]⟩ rest
      | Option.none =>
          processFiles ctx prev
            ⟨st.entries ++ [⟨"file", file, hashFile stat.content, Option.some timestamp⟩],
             st.numSkipped, st.numHashed + 1, st.hashedFiles ++ [file]⟩ rest

/-- The manifest entry the file loop produces for one file, as a function of
the previous manifest: the copied entry on the mtime fast path, a freshly
hashed entry otherwise. -/
def stepEntry (ctx : ScheduledTaskCtx) (prevL : List ManifestEntry)
    (file : String) : ManifestEntry :=
  match lookupPrev prevL "file" file with
  | Option.some e =>
      if e.meta == Option.some (ctx.fileStat file).mtimeMs then
        ⟨"file", file, e.hash, Option.some (ctx.fileStat file).mtimeMs⟩
      else
        ⟨"file", file, hashFile (ctx.fileStat file).content,
         Option.some (ctx.fileStat file).mtimeMs⟩
  | Option.none =>
      ⟨"file", file, hashFile (ctx.fileStat file).content,
       Option.some (ctx.fileStat file).mtimeMs⟩

/-- Whether the file loop takes the mtime fast path for one file. -/
def copiesLine (ctx : ScheduledTaskCtx) (prevL : List ManifestEntry)
    (file : String) : Bool :=
  match lookupPrev prevL "file" file with
  | Option.some e => e.meta == Option.some (ctx.fileStat file).mtimeMs
  | Option.none => false

/-- Modelled from the spec: ManifestConstructor.end (spec section 4.3):
didChange is false iff the new aggregate hash equals the previous manifest
aggregate hash; with no previous manifest the run is a miss (didChange). -/
def endDidChange (prev : Option (List ManifestEntry))
    (entries : List ManifestEntry) : Bool :=
  match prev with
  | Option.none => true
  | Option.some p => manifestHash entries != manifestHash p

/-- Result of computeManifest: null returned at line 230 (cache "none"), null
returned at line 320 (getInputFiles gave no set), or the built manifest with
its counters, didChange flag and aggregate hash. -/
inductive ManifestResult
  | noCache
  | noFiles
  | built (entries : List ManifestEntry) (numSkipped numHashed : Nat)
          (didChange : Bool) (hash : Nat)
deriving DecidableEq

/-- computeManifest (lines 229-353).  The previous manifest (read from disk by
the ManifestConstructor) is passed separately; none models an absent file. -/
def computeManifest (ctx : ScheduledTaskCtx) (prev : Option (List ManifestEntry)) :
    Except String ManifestResult :=
  match cacheGetter ctx.rawCache with
  | CacheSetting.noCache => Except.ok ManifestResult.noCache
  | CacheSetting.cfg _ =>
      match processRunsAfter ctx ⟨[], []⟩ ctx.runsAfter with
      | Except.error msg => Except.error msg
      | Except.ok ra =>
          match (match upstreamTaskKeys ctx with
                 | Option.none => Except.ok ra.entries
                 | Option.some keys => processPkgDeps ctx ra.entries keys :
                   Except String (List ManifestEntry)) with
          | Except.error msg => Except.error msg
          | Except.ok pkgEntries =>
              match ctx.getInputFiles ra.extraFiles.flatten with
              | Option.none => Except.ok ManifestResult.noFiles
              | Option.some files =>
                  let fs := processFiles ctx prev
                    ⟨pkgEntries ++ envEntries ctx, 0, 0, []⟩ (sortStrings files)
                  Except.ok (ManifestResult.built fs.entries fs.numSkipped
                    fs.numHashed (endDidChange prev fs.entries)
                    (manifestHash fs.entries))

/-- The observable filesystem effects of one computeManifest call, at the
granularity the claims need: the three conditional mkdirs (lines 236-244),
the ManifestConstructor creation (line 246), and the writes performed by
ManifestConstructor.end (next manifest, diff, rename; modelled from spec
section 4.3).  On the cache "none" early return nothing happens. -/
inductive Effect
  | mkdirManifestDir
  | mkdirNextManifestDir
  | mkdirDiffDir
  | createManifestConstructor
  | writeNextManifest
  | writeDiff
  | renameNextToManifest
deriving DecidableEq

def computeManifestEffects (ctx : ScheduledTaskCtx)
    (prev : Option (List ManifestEntry)) : List Effect :=
  match cacheGetter ctx.rawCache with
  | CacheSetting.noCache => []
  | CacheSetting.cfg _ =>
      let base :=
        (if !ctx.manifestDirExists then [Effect.mkdirManifestDir] else []) ++
        (if !ctx.nextManifestDirExists then [Effect.mkdirNextManifestDir] else []) ++
        (if !ctx.diffDirExists then [Effect.mkdirDiffDir] else []) ++
        [Effect.createManifestConstructor]
      match computeManifest ctx prev with
      | Except.error _ => base
      | Except.ok ManifestResult.noCache => base
      | Except.ok ManifestResult.noFiles => base
      | Except.ok (ManifestResult.built _ _ _ _ _) =>
          base ++ [Effect.writeNextManifest, Effect.writeDiff,
            Effect.renameNextToManifest]

/-! ## Scheduler and run command (run.js is under src/; the TaskGraph
scheduler and the logger are modelled from the spec) -/

/-- Task states from spec section 3. -/
inductive TaskStatus
  | pending
  | running
  | successEager
  | successLazy
  | failure
  | skipped
deriving DecidableEq

/-- Modelled from the spec: the cache decision of the scheduler (spec section
4.6 step 4, with force false unless requested): a task without a manifest
(cache "none", or no input set) always runs; a built manifest is a hit
exactly when didChange is false and force is false (didChange already covers
the absent-previous-manifest case). -/
def isCacheMiss (force : Bool) (r : ManifestResult) : Bool :=
  match r with
  | ManifestResult.noCache => true
  | ManifestResult.noFiles => true
  | ManifestResult.built _ _ _ didChange _ => force || didChange

/-- One schedulable task for the run model: its key and the function building
its computeManifest context from the cache keys of already-finished tasks
(the scheduler walks tasks in topological order, so every upstream key is
available when a task starts; spec section 5). -/
structure TaskSpec where
  key : String
  ctxOf : (String → Option Nat) → ScheduledTaskCtx

/-- First-match association list lookup. -/
def lookupAssoc {α : Type} (l : List (String × α)) (k : String) : Option α :=
  (l.find? (fun p => p.1 == k)).map (fun p => p.2)

/-- Accumulated outcome of a run: the inputManifestCacheKey map, the manifests
written to disk, the task statuses, and the total number of files hashed. -/
structure RunOutcome where
  keys : List (String × Nat)
  manifests : List (String × List ManifestEntry)
  statuses : List (String × TaskStatus)
  totalHashed : Nat
deriving DecidableEq

/-- Modelled from the spec: the scheduler walk (spec section 4.6), restricted
to what the claims observe.  Tasks are processed in topological order; each
computes its manifest from the previous on-disk manifest (prevM); on a built
manifest the task records its cache key and new manifest and is lazy exactly
on a cache hit; task commands are external processes assumed to succeed, so a
miss ends successEager; a computeManifest exception fails the task. -/
def runTasksAux (force : Bool) (prevM : String → Option (List ManifestEntry)) :
    RunOutcome → List TaskSpec → RunOutcome
  | acc, [] => acc
  | acc, t :: rest =>
      let ctx := t.ctxOf (lookupAssoc acc.keys)
      match computeManifest ctx (prevM t.key) with
      | Except.error _ =>
          runTasksAux force prevM
            ⟨acc.keys, acc.manifests,
             acc.statuses ++ [(t.key, TaskStatus.failure)], acc.totalHashed⟩ rest
      | Except.ok r =>
          let status := if isCacheMiss force r then TaskStatus.successEager
                        else TaskStatus.successLazy
          match r with
          | ManifestResult.built entries _ numHashed _ hash =>
              runTasksAux force prevM
                ⟨acc.keys ++ [(t.key, hash)], acc.manifests ++ [(t.key, entries)],
                 acc.statuses ++ [(t.key, status)], acc.totalHashed + numHashed⟩ rest
          | _ =>
              runTasksAux force prevM
                ⟨acc.keys, acc.manifests,
                 acc.statuses ++ [(t.key, status)], acc.totalHashed⟩ rest

def runTasks (force : Bool) (prevM : String → Option (List ManifestEntry))
    (tasks : List TaskSpec) : RunOutcome :=
  runTasksAux force prevM ⟨[], [], [], 0⟩ tasks

/-- TaskGraph.allFailedTasks, modelled from the spec (section 7): the keys of
the tasks that ended in failure. -/
def allFailedTasks (allTasks : List (String × TaskStatus)) : List String :=
  (allTasks.filter (fun p => p.2 == TaskStatus.failure)).map (fun p => p.1)

/-- The run command (src/commands/run.js lines 34-53) as an exit code, over
the post-run task states.  Modelled from the spec where the source leans on
collaborators: logger.fail (not under src/) reports and terminates the
process with a non-zero code (spec section 7), so the empty-graph check at
line 34 exits before any task runs and the failed-task check at line 47
exits non-zero; otherwise the process ends normally with exit code 0. -/
def runCommandExitCode (allTasks : List (String × TaskStatus)) : Nat :=
  if allTasks.length = 0 then 1
  else if (allFailedTasks allTasks).length > 0 then 1
  else 0

/-! ## Config file loading (src/config.js lines 23-49) -/

/-- One raw task entry of a lazy.config file (only the fields this
verification reads). -/
structure RawTaskConfig where
  runType : Option String
  cache : Option RawCache
deriving DecidableEq

/-- The raw shape of a lazy.config file. -/
structure LazyConfigRaw where
  baseCacheConfig : Option BaseCacheRaw
  tasks : List (String × RawTaskConfig)
deriving DecidableEq

/-- The empty default configuration used when a directory has no config file. -/
def emptyLazyConfig : LazyConfigRaw := ⟨Option.none, []⟩

structure LoadedConfig where
  filePath : Option String
  config : LazyConfigRaw
deriving DecidableEq

inductive ConfigError
  | multipleConfigFiles (files : List String)
  | invalidConfigFile
deriving DecidableEq

/-- getConfigFromDir (src/config.js lines 23-49), over the glob result for
lazy.config.* in the directory (fast-glob is an external collaborator) and an
abstract loader for the single-file case.  More than one match reports and
exits non-zero (process.exit(1)); zero matches proceed with the empty default
configuration; one match loads it, a falsy result being an error. -/
def getConfigFromDir (files : List String)
    (load : String → Option LazyConfigRaw) : Except ConfigError LoadedConfig :=
  if files.length > 1 then Except.error (ConfigError.multipleConfigFiles files)
  else
    match files with
    | [] => Except.ok ⟨Option.none, emptyLazyConfig⟩
    | f :: _ =>
        match load f with
        | Option.none => Except.error ConfigError.invalidConfigFile
        | Option.some c => Except.ok ⟨Option.some f, c⟩

/-- The run command pipeline order (run.js line 11: Config.from runs before
the TaskGraph is built): a config error terminates with exit 1 before the
runner is reached; the boolean records whether the runner was reached. -/
def lazyRunPipeline (files : List String) (load : String → Option LazyConfigRaw)
    (allTasks : List (String × TaskStatus)) : Nat × Bool :=
  match getConfigFromDir files load with
  | Except.error _ => (1, false)
  | Except.ok _ => (runCommandExitCode allTasks, true)

/-! ## Concrete instances used by the closed corollaries below -/

/-- A task configured with cache "none". -/
def ctxCacheNone : ScheduledTaskCtx :=
  ⟨"/repo", "/repo/packages/core", "build", Option.some RawCache.noneLiteral,
   "dependent", [], fun _ => false, fun _ => Option.none, Option.none,
   fun _ => "", Option.none, fun _ => Option.none, fun _ => ⟨"0", ""⟩,
   fun _ => Option.none, false, false, false⟩

def taskCacheNone : TaskSpec := ⟨"build::packages/core", fun _ => ctxCacheNone⟩

/-- A task whose runsAfter names a non-top-level task that exists in the graph
but has no inputManifestCacheKey. -/
def ctxMissingKey : ScheduledTaskCtx :=
  ⟨"/repo", "/repo/packages/core", "build", Option.none, "dependent",
   [("codegen", ⟨true, Option.none⟩)], fun _ => false,
   (fun k => if k = "codegen::packages/core"
             then Option.some ⟨Option.none, []⟩ else Option.none),
   Option.none, fun _ => "", Option.none, fun _ => Option.none,
   fun _ => ⟨"0", ""⟩, fun _ => Option.some [], false, false, false⟩

/-- A graph where every runsAfter target is declared top-level but absent. -/
def ctxTopMissing : ScheduledTaskCtx :=
  ⟨"/repo", "/repo/packages/core", "build", Option.none, "dependent", [],
   fun _ => true, fun _ => Option.none, Option.none, fun _ => "", Option.none,
   fun _ => Option.none, fun _ => ⟨"0", ""⟩, fun _ => Option.some [],
   false, false, false⟩

/-- A graph where every runsAfter target is non-top-level and absent. -/
def ctxNoNode : ScheduledTaskCtx :=
  ⟨"/repo", "/repo/packages/core", "build", Option.none, "dependent", [],
   fun _ => false, fun _ => Option.none, Option.none, fun _ => "", Option.none,
   fun _ => Option.none, fun _ => ⟨"0", ""⟩, fun _ => Option.some [],
   false, false, false⟩

/-- A task with overlapping base and task env inputs and no variable set. -/
def ctxEnv : ScheduledTaskCtx :=
  ⟨"/repo", "/repo/packages/core", "build",
   Option.some (RawCache.obj (Option.some ["A", "C"]) Option.none Option.none
     Option.none Option.none),
   "dependent", [], fun _ => false, fun _ => Option.none, Option.none,
   fun _ => "",
   Option.some ⟨Option.none, Option.none, Option.some ["B", "A"]⟩,
   fun _ => Option.none, fun _ => ⟨"0", ""⟩, fun _ => Option.some [],
   false, false, false⟩

/-- A cacheable task with no upstreams and an empty input file set. -/
def ctxIdem : ScheduledTaskCtx :=
  ⟨"/repo", "/repo/packages/core", "build", Option.none, "dependent", [],
   fun _ => false, fun _ => Option.none, Option.none, fun _ => "", Option.none,
   fun _ => Option.none, fun _ => ⟨"0", ""⟩, fun _ => Option.some [],
   false, false, false⟩

def taskIdem : TaskSpec := ⟨"build::packages/core", fun _ => ctxIdem⟩

/-- Two input files, the first of which matches the previous manifest by
mtime while the second has no previous entry. -/
def ctxFiles : ScheduledTaskCtx :=
  ⟨"/repo", "/repo/packages/core", "build", Option.none, "dependent", [],
   fun _ => false, fun _ => Option.none, Option.none, fun _ => "", Option.none,
   fun _ => Option.none,
   (fun f => if f = "packages/core/a.txt" then ⟨"100", "aaa"⟩ else ⟨"200", "bbb"⟩),
   fun _ => Option.some [], false, false, false⟩

def prevFiles : List ManifestEntry :=
  [⟨"file", "packages/core/a.txt", 7, Option.some "100"⟩]

/-! ## General list lemmas -/

theorem filter_eq_self_of {α : Type} (p : α → Bool) :
    ∀ l : List α, (∀ a ∈ l, p a = true) → l.filter p = l
  | [], _ => rfl
  | x :: xs, h => by
      have hx : p x = true := h x (List.mem_cons_self x xs)
      simp only [List.filter, hx]
      exact congrArg (x :: ·) (filter_eq_self_of p xs fun a ha => h a (List.mem_cons_of_mem x ha))

theorem filter_eq_nil_of {α : Type} (p : α → Bool) :
    ∀ l : List α, (∀ a ∈ l, p a = false) → l.filter p = []
  | [], _ => rfl
  | x :: xs, h => by
      have hx : p x = false := h x (List.mem_cons_self x xs)
      simp only [List.filter, hx]
      exact filter_eq_nil_of p xs fun a ha => h a (List.mem_cons_of_mem x ha)

theorem length_filter_add_length_filter_not {α : Type} (p : α → Bool) :
    ∀ l : List α, (l.filter p).length + (l.filter (fun a => !p a)).length = l.length
  | [] => rfl
  | x :: xs => by
      by_cases hx : p x = true
      · simp only [List.filter, hx, Bool.not_true, List.length_cons]
        have := length_filter_add_length_filter_not p xs
        omega
      · have hx2 : p x = false := by
          cases hp : p x
          · rfl
          · exact absurd hp hx
        simp only [List.filter, hx2, Bool.not_false, List.length_cons]
        have := length_filter_add_length_filter_not p xs
        omega

/-! ## Sorting lemmas for sortStrings -/

theorem mem_insertSorted (x y : String) :
    ∀ l : List String, (y ∈ insertSorted x l ↔ y = x ∨ y ∈ l)
  | [] => by simp [insertSorted]
  | z :: zs => by
      by_cases h : x ≤ z <;> simp [insertSorted, h, mem_insertSorted x y zs] <;> tauto

theorem mem_sortStrings (y : String) :
    ∀ l : List String, (y ∈ sortStrings l ↔ y ∈ l)
  | [] => Iff.rfl
  | x :: xs => by
      simp [sortStrings, mem_insertSorted, mem_sortStrings y xs]

theorem pairwise_insertSorted (x : String) :
    ∀ l : List String, l.Pairwise (· ≤ ·) → (insertSorted x l).Pairwise (· ≤ ·)
  | [], _ => by simp [insertSorted]
  | z :: zs, h => by
      rcases List.pairwise_cons.mp h with ⟨hz, hzs⟩
      by_cases hle : x ≤ z
      · simp only [insertSorted, if_pos hle]
        refine List.pairwise_cons.mpr ⟨?_, h⟩
        intro b hb
        rcases List.mem_cons.mp hb with hb | hb
        · exact hb ▸ hle
        · exact le_trans hle (hz b hb)
      · simp only [insertSorted, if_neg hle]
        refine List.pairwise_cons.mpr ⟨?_, pairwise_insertSorted x zs hzs⟩
        intro b hb
        rcases (mem_insertSorted x b zs).mp hb with hb | hb
        · exact hb ▸ le_of_not_le hle
        · exact hz b hb

theorem pairwise_sortStrings :
    ∀ l : List String, (sortStrings l).Pairwise (· ≤ ·)
  | [] => List.Pairwise.nil
  | x :: xs => pairwise_insertSorted x (sortStrings xs) (pairwise_sortStrings xs)

theorem nodup_insertSorted (x : String) :
    ∀ l : List String, x ∉ l → l.Nodup → (insertSorted x l).Nodup
  | [], _, _ => List.nodup_singleton x
  | z :: zs, hx, h => by
      rcases List.nodup_cons.mp h with ⟨hz, hzs⟩
      by_cases hle : x ≤ z
      · simp only [insertSorted, if_pos hle]
        exact List.nodup_cons.mpr ⟨hx, h⟩
      · simp only [insertSorted, if_neg hle]
        refine List.nodup_cons.mpr ⟨?_, nodup_insertSorted x zs (fun hm => hx (List.mem_cons_of_mem z hm)) hzs⟩
        intro hm
        rcases (mem_insertSorted x z zs).mp hm with hm | hm
        · exact hx (hm ▸ List.mem_cons_self z zs)
        · exact hz hm

theorem nodup_sortStrings :
    ∀ l : List String, l.Nodup → (sortStrings l).Nodup
  | [], _ => List.Pairwise.nil
  | x :: xs, h => by
      rcases List.nodup_cons.mp h with ⟨hx, hxs⟩
      exact nodup_insertSorted x (sortStrings xs)
        (fun hm => hx ((mem_sortStrings x xs).mp hm)) (nodup_sortStrings xs hxs)

/-! ## uniq lemmas -/

theorem mem_uniqAux (y : String) :
    ∀ (l seen : List String), (y ∈ uniqAux seen l ↔ y ∈ l ∧ y ∉ seen)
  | [], seen => by simp [uniqAux]
  | x :: xs, seen => by
      by_cases h : x ∈ seen
      · simp only [uniqAux, if_pos h, mem_uniqAux y xs seen, List.mem_cons]
        constructor
        · rintro ⟨hy, hs⟩; exact ⟨Or.inr hy, hs⟩
        · rintro ⟨hy | hy, hs⟩
          · exact absurd (hy ▸ h) hs
          · exact ⟨hy, hs⟩
      · simp only [uniqAux, if_neg h, List.mem_cons, mem_uniqAux y xs (x :: seen)]
        by_cases hxy : y = x
        · subst hxy; tauto
        · tauto

theorem nodup_uniqAux :
    ∀ (l seen : List String), (uniqAux seen l).Nodup
  | [], _ => List.Pairwise.nil
  | x :: xs, seen => by
      by_cases h : x ∈ seen
      · simpa only [uniqAux, if_pos h] using nodup_uniqAux xs seen
      · simp only [uniqAux, if_neg h]
        refine List.nodup_cons.mpr ⟨?_, nodup_uniqAux xs (x :: seen)⟩
        intro hm
        exact ((mem_uniqAux x xs (x :: seen)).mp hm).2 (List.mem_cons_self x seen)

theorem mem_uniq (y : String) (l : List String) : y ∈ uniq l ↔ y ∈ l := by
  simp [uniq, mem_uniqAux]

theorem nodup_uniq (l : List String) : (uniq l).Nodup := nodup_uniqAux l []

/-! ## File loop lemmas -/

theorem stepEntry_type (ctx : ScheduledTaskCtx) (prevL : List ManifestEntry)
    (file : String) :
    (stepEntry ctx prevL file).type = "file" ∧
    (stepEntry ctx prevL file).id = file ∧
    (stepEntry ctx prevL file).meta = Option.some (ctx.fileStat file).mtimeMs := by
  unfold stepEntry
  cases hl : lookupPrev prevL "file" file with
  | none => simp
  | some e =>
      cases hm : e.meta == Option.some (ctx.fileStat file).mtimeMs <;> simp [hm]

/-- Characterization of the file loop: relative to the accumulator, the
entries are stepEntry per file in order, numSkipped counts the fast-path
files, numHashed counts (and hashedFiles lists) the re-hashed files. -/
theorem processFiles_eq (ctx : ScheduledTaskCtx)
    (prev : Option (List ManifestEntry)) :
    ∀ (files : List String) (st : FState),
      processFiles ctx prev st files =
        ⟨st.entries ++ files.map (stepEntry ctx (prev.getD [])),
         st.numSkipped +
           (files.filter (fun f => copiesLine ctx (prev.getD []) f)).length,
         st.numHashed +
           (files.filter (fun f => !copiesLine ctx (prev.getD []) f)).length,
         st.hashedFiles ++ files.filter (fun f => !copiesLine ctx (prev.getD []) f)⟩
  | [], st => by simp [processFiles]
  | file :: rest, st => by
      have IH := processFiles_eq ctx prev rest
      simp only [processFiles]
      split
      · next e hl =>
          split
          · next hm =>
              have hstep : stepEntry ctx (prev.getD []) file =
                  ⟨"file", file, e.hash, Option.some (ctx.fileStat file).mtimeMs⟩ := by
                unfold stepEntry; rw [hl]; simp [hm]
              have hcop : copiesLine ctx (prev.getD []) file = true := by
                unfold copiesLine; rw [hl]; simpa using hm
              rw [IH]
              simp [List.filter_cons, hcop, hstep, List.append_assoc]
              omega
          · next hm =>
              have hstep : stepEntry ctx (prev.getD []) file =
                  ⟨"file", file, hashFile (ctx.fileStat file).content,
                   Option.some (ctx.fileStat file).mtimeMs⟩ := by
                unfold stepEntry; rw [hl]; simp [hm]
              have hcop : copiesLine ctx (prev.getD []) file = false := by
                unfold copiesLine; rw [hl]
                simpa using hm
              rw [IH]
              simp [List.filter_cons, hcop, hstep, List.append_assoc]
              omega
      · next hl =>
          have hstep : stepEntry ctx (prev.getD []) file =
              ⟨"file", file, hashFile (ctx.fileStat file).content,
               Option.some (ctx.fileStat file).mtimeMs⟩ := by
            unfold stepEntry; rw [hl]
          have hcop : copiesLine ctx (prev.getD []) file = false := by
            unfold copiesLine; rw [hl]
          rw [IH]
          simp [List.filter_cons, hcop, hstep, List.append_assoc]
          omega

theorem entry_eta (p : ManifestEntry) (f mt : String)
    (ht : p.type = "file") (hi : p.id = f) (hm : p.meta = Option.some mt) :
    (⟨"file", f, p.hash, Option.some mt⟩ : ManifestEntry) = p := by
  cases p
  simp_all

theorem lookupPrev_append_skip (f : String) :
    ∀ (A l2 : List ManifestEntry), (∀ e ∈ A, e.type ≠ "file") →
      lookupPrev (A ++ l2) "file" f = lookupPrev l2 "file" f
  | [], _, _ => rfl
  | e :: A, l2, h => by
      have he : e.type ≠ "file" := h e (List.mem_cons_self e A)
      unfold lookupPrev
      simp only [List.cons_append]
      rw [List.find?_cons_of_neg]
      · exact lookupPrev_append_skip f A l2 fun a ha => h a (List.mem_cons_of_mem e ha)
      · simp [he]

theorem lookupPrev_map_stepEntry (ctx : ScheduledTaskCtx)
    (prevL : List ManifestEntry) :
    ∀ (files : List String) (f : String), f ∈ files → files.Nodup →
      lookupPrev (files.map (stepEntry ctx prevL)) "file" f =
        Option.some (stepEntry ctx prevL f)
  | [], f, hmem, _ => absurd hmem (List.not_mem_nil f)
  | g :: rest, f, hmem, hnd => by
      rcases List.nodup_cons.mp hnd with ⟨hg, hrest⟩
      obtain ⟨ht, hi, _⟩ := stepEntry_type ctx prevL g
      by_cases hf : f = g
      · subst hf
        unfold lookupPrev
        simp only [List.map_cons]
        rw [List.find?_cons_of_pos]
        simp [ht, hi]
      · have hmem2 : f ∈ rest := by
          rcases List.mem_cons.mp hmem with hcase | hcase
          · exact absurd hcase hf
          · exact hcase
        unfold lookupPrev
        simp only [List.map_cons]
        rw [List.find?_cons_of_neg]
        · exact lookupPrev_map_stepEntry ctx prevL rest f hmem2 hrest
        · simp [ht, hi]
          exact fun hc => hf hc.symm

theorem stepEntry_of_lookup (ctx : ScheduledTaskCtx)
    (prevL : List ManifestEntry) (f : String) (p : ManifestEntry)
    (hl : lookupPrev prevL "file" f = Option.some p)
    (hb : (p.meta == Option.some (ctx.fileStat f).mtimeMs) = true) :
    stepEntry ctx prevL f =
      ⟨"file", f, p.hash, Option.some (ctx.fileStat f).mtimeMs⟩ := by
  unfold stepEntry
  rw [hl]
  simp [hb]

theorem copiesLine_of_lookup (ctx : ScheduledTaskCtx)
    (prevL : List ManifestEntry) (f : String) (p : ManifestEntry)
    (hl : lookupPrev prevL "file" f = Option.some p) :
    copiesLine ctx prevL f = (p.meta == Option.some (ctx.fileStat f).mtimeMs) := by
  unfold copiesLine
  rw [hl]

/-- On a second pass over the same files, with the previous manifest being the
manifest this pass produced (preceded by non-file entries), every file takes
the fast path and is copied unchanged. -/
theorem stepEntry_self (ctx : ScheduledTaskCtx)
    (prevL A : List ManifestEntry) (files : List String) (f : String)
    (hA : ∀ e ∈ A, e.type ≠ "file") (hmem : f ∈ files) (hnd : files.Nodup) :
    copiesLine ctx (A ++ files.map (stepEntry ctx prevL)) f = true ∧
    stepEntry ctx (A ++ files.map (stepEntry ctx prevL)) f =
      stepEntry ctx prevL f := by
  have hl : lookupPrev (A ++ files.map (stepEntry ctx prevL)) "file" f =
      Option.some (stepEntry ctx prevL f) := by
    rw [lookupPrev_append_skip f A _ hA]
    exact lookupPrev_map_stepEntry ctx prevL files f hmem hnd
  obtain ⟨ht, hi, hmeta⟩ := stepEntry_type ctx prevL f
  have hb : ((stepEntry ctx prevL f).meta ==
      Option.some (ctx.fileStat f).mtimeMs) = true := by simp [hmeta]
  constructor
  · rw [copiesLine_of_lookup ctx _ f _ hl]
    exact hb
  · rw [stepEntry_of_lookup ctx _ f _ hl hb]
    exact entry_eta (stepEntry ctx prevL f) f (ctx.fileStat f).mtimeMs ht hi hmeta

/-! ## Evaluation equations for the runsAfter loop body -/

theorem praeSkip (ctx : ScheduledTaskCtx) (st : RAState) (e : String × DepConfig)
    (hskip : (!e.2.inheritsInput && e.2.usesOutput == Option.some false) = true) :
    processRunsAfterEntry ctx st e = Except.ok st := by
  simp only [processRunsAfterEntry, hskip]
  rfl

theorem praeMissingTop (ctx : ScheduledTaskCtx) (st : RAState) (e : String × DepConfig)
    (hskip : (!e.2.inheritsInput && e.2.usesOutput == Option.some false) = false)
    (htop : ctx.runTypeIsTopLevel e.1 = true)
    (hat : ctx.allTasks (raKeyOf ctx e.1) = Option.none) :
    processRunsAfterEntry ctx st e =
      Except.error ("Missing task: " ++ raKeyOf ctx e.1 ++ ".") := by
  simp only [processRunsAfterEntry, hskip, hat, htop]
  rfl

theorem praeMissingNonTop (ctx : ScheduledTaskCtx) (st : RAState) (e : String × DepConfig)
    (hskip : (!e.2.inheritsInput && e.2.usesOutput == Option.some false) = false)
    (htop : ctx.runTypeIsTopLevel e.1 = false)
    (hat : ctx.allTasks (raKeyOf ctx e.1) = Option.none) :
    processRunsAfterEntry ctx st e = Except.ok st := by
  simp only [processRunsAfterEntry, hskip, hat, htop]
  rfl

theorem praeNoKey (ctx : ScheduledTaskCtx) (st : RAState) (e : String × DepConfig)
    (depTask : DepTask)
    (hskip : (!e.2.inheritsInput && e.2.usesOutput == Option.some false) = false)
    (hat : ctx.allTasks (raKeyOf ctx e.1) = Option.some depTask)
    (hinh : e.2.inheritsInput = true)
    (hkey : depTask.inputManifestCacheKey = Option.none) :
    processRunsAfterEntry ctx st e =
      Except.error ("Missing inputManifestCacheKey for task: " ++ raKeyOf ctx e.1 ++ ".") := by
  simp only [processRunsAfterEntry, hskip, hat, hinh, hkey]
  rfl

theorem praeOkInherit (ctx : ScheduledTaskCtx) (st : RAState) (e : String × DepConfig)
    (depTask : DepTask) (k : Nat)
    (hskip : (!e.2.inheritsInput && e.2.usesOutput == Option.some false) = false)
    (hat : ctx.allTasks (raKeyOf ctx e.1) = Option.some depTask)
    (hinh : e.2.inheritsInput = true)
    (hkey : depTask.inputManifestCacheKey = Option.some k) :
    processRunsAfterEntry ctx st e =
      Except.ok ⟨st.entries ++
        [⟨"upstream task inputs", raKeyOf ctx e.1, k, Option.none⟩],
        if e.2.usesOutput != Option.some false
        then st.extraFiles ++ [depTask.outputFiles] else st.extraFiles⟩ := by
  simp only [processRunsAfterEntry, hskip, hat, hinh, hkey]
  rfl

theorem praeOkNoInherit (ctx : ScheduledTaskCtx) (st : RAState) (e : String × DepConfig)
    (depTask : DepTask)
    (hskip : (!e.2.inheritsInput && e.2.usesOutput == Option.some false) = false)
    (hat : ctx.allTasks (raKeyOf ctx e.1) = Option.some depTask)
    (hinh : e.2.inheritsInput = false) :
    processRunsAfterEntry ctx st e =
      Except.ok ⟨st.entries,
        if e.2.usesOutput != Option.some false
        then st.extraFiles ++ [depTask.outputFiles] else st.extraFiles⟩ := by
  have huse : (e.2.usesOutput == Option.some false) = false := by
    rw [hinh] at hskip
    simpa using hskip
  simp only [processRunsAfterEntry, hskip, hat, hinh, huse]
  rfl

/-! ## Types of the entries produced before the file loop -/

theorem processRunsAfterEntry_entries (ctx : ScheduledTaskCtx) (st : RAState)
    (e : String × DepConfig) (st1 : RAState)
    (h : processRunsAfterEntry ctx st e = Except.ok st1) :
    ∀ x ∈ st1.entries, x ∈ st.entries ∨ x.type = "upstream task inputs" := by
  cases hskip : (!e.2.inheritsInput && e.2.usesOutput == Option.some false) with
  | true =>
      rw [praeSkip ctx st e hskip] at h
      cases h
      exact fun x hx => Or.inl hx
  | false =>
      cases hat : ctx.allTasks (raKeyOf ctx e.1) with
      | none =>
          cases htop : ctx.runTypeIsTopLevel e.1 with
          | false =>
              rw [praeMissingNonTop ctx st e hskip htop hat] at h
              cases h
              exact fun x hx => Or.inl hx
          | true =>
              rw [praeMissingTop ctx st e hskip htop hat] at h
              exact absurd h (by simp)
      | some depTask =>
          cases hinh : e.2.inheritsInput with
          | false =>
              rw [praeOkNoInherit ctx st e depTask hskip hat hinh] at h
              cases h
              exact fun x hx => Or.inl hx
          | true =>
              cases hkey : depTask.inputManifestCacheKey with
              | none =>
                  rw [praeNoKey ctx st e depTask hskip hat hinh hkey] at h
                  exact absurd h (by simp)
              | some k =>
                  rw [praeOkInherit ctx st e depTask k hskip hat hinh hkey] at h
                  cases h
                  intro x hx
                  rcases List.mem_append.mp hx with hx | hx
                  · exact Or.inl hx
                  · rcases List.mem_cons.mp hx with hx | hx
                    · exact Or.inr (by rw [hx])
                    · exact absurd hx (List.not_mem_nil x)

theorem processRunsAfter_types (ctx : ScheduledTaskCtx) :
    ∀ (l : List (String × DepConfig)) (st st1 : RAState),
      processRunsAfter ctx st l = Except.ok st1 →
      ∀ x ∈ st1.entries, x ∈ st.entries ∨ x.type = "upstream task inputs"
  | [], st, st1, h => by
      unfold processRunsAfter at h
      cases h
      exact fun x hx => Or.inl hx
  | e :: rest, st, st1, h => by
      unfold processRunsAfter at h
      split at h
      · exact absurd h (by simp)
      · next stMid hMid =>
          intro x hx
          rcases processRunsAfter_types ctx rest stMid st1 h x hx with hx1 | hty
          · exact processRunsAfterEntry_entries ctx st e stMid hMid x hx1
          · exact Or.inr hty

theorem processPkgDeps_types (ctx : ScheduledTaskCtx) :
    ∀ (keys : List String) (entries out : List ManifestEntry),
      processPkgDeps ctx entries keys = Except.ok out →
      ∀ x ∈ out, x ∈ entries ∨ x.type = "upstream package inputs"
  | [], entries, out, h => by
      unfold processPkgDeps at h
      cases h
      exact fun x hx => Or.inl hx
  | key :: rest, entries, out, h => by
      unfold processPkgDeps at h
      split at h
      · exact fun x hx => processPkgDeps_types ctx rest entries out h x hx
      · split at h
        · exact absurd h (by simp)
        · intro x hx
          rcases processPkgDeps_types ctx rest _ out h x hx with hx1 | hty
          · rcases List.mem_append.mp hx1 with hx1 | hx1
            · exact Or.inl hx1
            · rcases List.mem_cons.mp hx1 with hx1 | hx1
              · exact Or.inr (by rw [hx1])
              · exact absurd hx1 (List.not_mem_nil x)
          · exact Or.inr hty

theorem envEntries_type (ctx : ScheduledTaskCtx) :
    ∀ x ∈ envEntries ctx, x.type = "env var" := by
  intro x hx
  rcases List.mem_map.mp hx with ⟨v, _, hv⟩
  rw [← hv]

/-- Core idempotence of the manifest computation: re-running computeManifest
on the same context, with the previous manifest being exactly the manifest
the first run produced, rebuilds the identical manifest with every file
copied over the mtime fast path (nothing hashed) and didChange false. -/
theorem computeManifest_idem (ctx : ScheduledTaskCtx)
    (prev0 : Option (List ManifestEntry)) (E : List ManifestEntry)
    (s h : Nat) (dc : Bool) (hsh : Nat)
    (hnd : ∀ extra fs, ctx.getInputFiles extra = Option.some fs → fs.Nodup)
    (h1 : computeManifest ctx prev0 = Except.ok (ManifestResult.built E s h dc hsh)) :
    computeManifest ctx (Option.some E) =
      Except.ok (ManifestResult.built E (s + h) 0 false hsh) := by
  unfold computeManifest at h1 ⊢
  split at h1
  · exact absurd h1 (by simp)
  · next c hcg =>
      split at h1
      · exact absurd h1 (by simp)
      · next ra hra =>
          split at h1
          · exact absurd h1 (by simp)
          · next pkgEntries hpkg =>
              split at h1
              · exact absurd h1 (by simp)
              · next files hfiles =>
                  have hraTy : ∀ x ∈ ra.entries,
                      x ∈ ([] : List ManifestEntry) ∨ x.type = "upstream task inputs" :=
                    processRunsAfter_types ctx ctx.runsAfter ⟨[], []⟩ ra hra
                  have hpre : ∀ x ∈ pkgEntries ++ envEntries ctx, x.type ≠ "file" := by
                    intro x hx
                    rcases List.mem_append.mp hx with hx | hx
                    · have : x ∈ ra.entries ∨ x.type = "upstream package inputs" := by
                        split at hpkg
                        · cases hpkg
                          exact Or.inl hx
                        · exact processPkgDeps_types ctx _ _ _ hpkg x hx
                      rcases this with hx1 | hty
                      · rcases hraTy x hx1 with hx2 | hty
                        · exact absurd hx2 (List.not_mem_nil x)
                        · rw [hty]; decide
                      · rw [hty]; decide
                    · rw [envEntries_type ctx x hx]; decide
                  have hsnodup : (sortStrings files).Nodup :=
                    nodup_sortStrings files (hnd ra.extraFiles.flatten files hfiles)
                  rw [processFiles_eq] at h1
                  simp only [Except.ok.injEq, ManifestResult.built.injEq] at h1
                  obtain ⟨hE, hs, hh, _, hhsh⟩ := h1
                  rw [processFiles_eq]
                  have hgetD : (Option.some E).getD ([] : List ManifestEntry) = E := rfl
                  rw [hgetD]
                  have hfix : ∀ f ∈ sortStrings files,
                      copiesLine ctx E f = true ∧
                      stepEntry ctx E f = stepEntry ctx (prev0.getD []) f := by
                    intro f hf
                    have := stepEntry_self ctx (prev0.getD [])
                      (pkgEntries ++ envEntries ctx) (sortStrings files) f hpre hf hsnodup
                    rw [hE] at this
                    exact this
                  have hmapeq : (sortStrings files).map (stepEntry ctx E) =
                      (sortStrings files).map (stepEntry ctx (prev0.getD [])) :=
                    List.map_congr_left fun f hf => (hfix f hf).2
                  have hfilT : (sortStrings files).filter
                      (fun f => copiesLine ctx E f) = sortStrings files :=
                    filter_eq_self_of _ _ fun f hf => (hfix f hf).1
                  have hfilF : (sortStrings files).filter
                      (fun f => !copiesLine ctx E f) = [] :=
                    filter_eq_nil_of _ _ fun f hf => by rw [(hfix f hf).1]; rfl
                  have hlen := length_filter_add_length_filter_not
                    (fun f => copiesLine ctx (prev0.getD []) f) (sortStrings files)
                  simp only [hmapeq, hfilT, hfilF, List.length_nil, List.append_nil,
                    Nat.add_zero, Nat.zero_add]
                  rw [hE] at hhsh ⊢
                  have hlen2 : (sortStrings files).length = s + h := by omega
                  rw [hlen2, hhsh]
                  simp [endDidChange]
/-! ## Run model lemmas -/

theorem lookupAssoc_append_skip {α : Type} (k : String) :
    ∀ (l1 l2 : List (String × α)), (∀ m ∈ l1, m.1 ≠ k) →
      lookupAssoc (l1 ++ l2) k = lookupAssoc l2 k
  | [], _, _ => rfl
  | m :: l1, l2, h => by
      unfold lookupAssoc
      simp only [List.cons_append]
      rw [List.find?_cons_of_neg]
      · exact lookupAssoc_append_skip k l1 l2 fun a ha => h a (List.mem_cons_of_mem m ha)
      · simp [h m (List.mem_cons_self m l1)]

theorem lookupAssoc_cons_self {α : Type} (k : String) (v : α)
    (l : List (String × α)) :
    lookupAssoc ((k, v) :: l) k = Option.some v := by
  unfold lookupAssoc
  rw [List.find?_cons_of_pos]
  · rfl
  · simp

/-- One step of the scheduler on a task whose manifest builds successfully. -/
theorem runTasksAux_cons_built (force : Bool)
    (prevM : String → Option (List ManifestEntry)) (acc : RunOutcome)
    (t : TaskSpec) (rest : List TaskSpec) (E : List ManifestEntry)
    (s hh : Nat) (dc : Bool) (hsh : Nat)
    (hcm : computeManifest (t.ctxOf (lookupAssoc acc.keys)) (prevM t.key) =
      Except.ok (ManifestResult.built E s hh dc hsh)) :
    runTasksAux force prevM acc (t :: rest) =
      runTasksAux force prevM
        ⟨acc.keys ++ [(t.key, hsh)], acc.manifests ++ [(t.key, E)],
         acc.statuses ++ [(t.key,
           if isCacheMiss force (ManifestResult.built E s hh dc hsh)
           then TaskStatus.successEager else TaskStatus.successLazy)],
         acc.totalHashed + hh⟩ rest := by
  conv_lhs => rw [runTasksAux]
  simp only [hcm]

/-- One step of the scheduler on a task whose manifest computation throws. -/
theorem runTasksAux_cons_error (force : Bool)
    (prevM : String → Option (List ManifestEntry)) (acc : RunOutcome)
    (t : TaskSpec) (rest : List TaskSpec) (msg : String)
    (hcm : computeManifest (t.ctxOf (lookupAssoc acc.keys)) (prevM t.key) =
      Except.error msg) :
    runTasksAux force prevM acc (t :: rest) =
      runTasksAux force prevM
        ⟨acc.keys, acc.manifests,
         acc.statuses ++ [(t.key, TaskStatus.failure)], acc.totalHashed⟩ rest := by
  conv_lhs => rw [runTasksAux]
  simp only [hcm]

/-- One step of the scheduler on a task whose manifest computation returns
null (cache "none" or no input set). -/
theorem runTasksAux_cons_null (force : Bool)
    (prevM : String → Option (List ManifestEntry)) (acc : RunOutcome)
    (t : TaskSpec) (rest : List TaskSpec) (r : ManifestResult)
    (hcm : computeManifest (t.ctxOf (lookupAssoc acc.keys)) (prevM t.key) =
      Except.ok r)
    (hr : r = ManifestResult.noCache ∨ r = ManifestResult.noFiles) :
    runTasksAux force prevM acc (t :: rest) =
      runTasksAux force prevM
        ⟨acc.keys, acc.manifests,
         acc.statuses ++ [(t.key,
           if isCacheMiss force r
           then TaskStatus.successEager else TaskStatus.successLazy)],
         acc.totalHashed⟩ rest := by
  conv_lhs => rw [runTasksAux]
  rcases hr with hr | hr <;> (subst hr; simp only [hcm])

theorem runTasksAux_manifests_mono (force : Bool)
    (prevM : String → Option (List ManifestEntry)) :
    ∀ (ts : List TaskSpec) (acc : RunOutcome),
      ∃ delta, (runTasksAux force prevM acc ts).manifests = acc.manifests ++ delta ∧
        ∀ m ∈ delta, ∃ t, t ∈ ts ∧ m.1 = t.key
  | [], acc =>
      ⟨[], by simp [runTasksAux], fun m hm => absurd hm (List.not_mem_nil m)⟩
  | t :: rest, acc => by
      have push : ∀ acc1 : RunOutcome, (acc1.manifests = acc.manifests ∨
          ∃ E, acc1.manifests = acc.manifests ++ [(t.key, E)]) →
          ∃ delta, (runTasksAux force prevM acc1 rest).manifests = acc.manifests ++ delta ∧
            ∀ m ∈ delta, ∃ u, u ∈ t :: rest ∧ m.1 = u.key := by
        intro acc1 hcase
        obtain ⟨delta, hd, hk⟩ := runTasksAux_manifests_mono force prevM rest acc1
        rcases hcase with hc | ⟨E, hc⟩
        · exact ⟨delta, by rw [hd, hc], fun m hm => by
            obtain ⟨u, hu, he⟩ := hk m hm
            exact ⟨u, List.mem_cons_of_mem t hu, he⟩⟩
        · exact ⟨[(t.key, E)] ++ delta, by rw [hd, hc, List.append_assoc],
            fun m hm => by
              rcases List.mem_append.mp hm with hm | hm
              · rcases List.mem_cons.mp hm with hm | hm
                · exact ⟨t, List.mem_cons_self t rest, by rw [hm]⟩
                · exact absurd hm (List.not_mem_nil m)
              · obtain ⟨u, hu, he⟩ := hk m hm
                exact ⟨u, List.mem_cons_of_mem t hu, he⟩⟩
      rcases hcm : computeManifest (t.ctxOf (lookupAssoc acc.keys)) (prevM t.key)
        with msg | r
      · rw [runTasksAux_cons_error force prevM acc t rest msg hcm]
        exact push _ (Or.inl rfl)
      · cases r with
        | noCache =>
            rw [runTasksAux_cons_null force prevM acc t rest _ hcm (Or.inl rfl)]
            exact push _ (Or.inl rfl)
        | noFiles =>
            rw [runTasksAux_cons_null force prevM acc t rest _ hcm (Or.inr rfl)]
            exact push _ (Or.inl rfl)
        | built entries ns nh ndc nhash =>
            rw [runTasksAux_cons_built force prevM acc t rest entries ns nh ndc nhash hcm]
            exact push _ (Or.inr ⟨entries, rfl⟩)

/-- Master induction for the all-lazy second run: if the first walk from acc1
builds every manifest, the second walk over the same tasks, reading the
manifests the first walk wrote, reproduces the same keys and manifests,
hashes nothing new, and marks every processed task success-lazy. -/
theorem runTasksAux_idem_master :
    ∀ (ts : List TaskSpec) (acc1 acc2 : RunOutcome)
      (prevM1 : String → Option (List ManifestEntry)),
      acc2.keys = acc1.keys →
      acc2.manifests = acc1.manifests →
      (∀ t ∈ ts, ∀ keyf prev, ∃ E s hh dc hsh,
        computeManifest (t.ctxOf keyf) prev =
          Except.ok (ManifestResult.built E s hh dc hsh)) →
      (∀ t ∈ ts, ∀ keyf extra fs,
        (t.ctxOf keyf).getInputFiles extra = Option.some fs → fs.Nodup) →
      ((ts.map fun t => t.key).Nodup) →
      (∀ t ∈ ts, ∀ m ∈ acc1.manifests, m.1 ≠ t.key) →
      (runTasksAux false (lookupAssoc (runTasksAux false prevM1 acc1 ts).manifests)
          acc2 ts).keys = (runTasksAux false prevM1 acc1 ts).keys ∧
      (runTasksAux false (lookupAssoc (runTasksAux false prevM1 acc1 ts).manifests)
          acc2 ts).manifests = (runTasksAux false prevM1 acc1 ts).manifests ∧
      (runTasksAux false (lookupAssoc (runTasksAux false prevM1 acc1 ts).manifests)
          acc2 ts).totalHashed = acc2.totalHashed ∧
      (∀ p ∈ (runTasksAux false (lookupAssoc (runTasksAux false prevM1 acc1 ts).manifests)
          acc2 ts).statuses, p ∈ acc2.statuses ∨ p.2 = TaskStatus.successLazy)
  | [], acc1, acc2, prevM1, h2k, h2m, _, _, _, _ => by
      simp only [runTasksAux]
      exact ⟨h2k, h2m, by trivial, fun p hp => Or.inl hp⟩
  | t :: rest, acc1, acc2, prevM1, h2k, h2m, hok, hnd, hkeys, hfresh => by
      obtain ⟨E, s, hh, dc, hsh, hcm1⟩ :=
        hok t (List.mem_cons_self t rest) (lookupAssoc acc1.keys) (prevM1 t.key)
      have hidem := computeManifest_idem (t.ctxOf (lookupAssoc acc1.keys))
        (prevM1 t.key) E s hh dc hsh
        (hnd t (List.mem_cons_self t rest) (lookupAssoc acc1.keys)) hcm1
      rw [List.map_cons] at hkeys
      obtain ⟨hknotin, hkrest⟩ := List.nodup_cons.mp hkeys
      rw [runTasksAux_cons_built false prevM1 acc1 t rest E s hh dc hsh hcm1]
      have hlook : lookupAssoc (runTasksAux false prevM1
          ⟨acc1.keys ++ [(t.key, hsh)], acc1.manifests ++ [(t.key, E)],
           acc1.statuses ++ [(t.key,
             if isCacheMiss false (ManifestResult.built E s hh dc hsh)
             then TaskStatus.successEager else TaskStatus.successLazy)],
           acc1.totalHashed + hh⟩ rest).manifests t.key = Option.some E := by
        obtain ⟨delta, hd, _⟩ := runTasksAux_manifests_mono false prevM1 rest
          ⟨acc1.keys ++ [(t.key, hsh)], acc1.manifests ++ [(t.key, E)],
           acc1.statuses ++ [(t.key,
             if isCacheMiss false (ManifestResult.built E s hh dc hsh)
             then TaskStatus.successEager else TaskStatus.successLazy)],
           acc1.totalHashed + hh⟩
        rw [hd]
        show lookupAssoc ((acc1.manifests ++ [(t.key, E)]) ++ delta) t.key = Option.some E
        rw [List.append_assoc]
        rw [lookupAssoc_append_skip t.key acc1.manifests _
          (fun m hm => hfresh t (List.mem_cons_self t rest) m hm)]
        exact lookupAssoc_cons_self t.key E delta
      have hcm2 : computeManifest (t.ctxOf (lookupAssoc acc2.keys))
          (lookupAssoc (runTasksAux false prevM1
            ⟨acc1.keys ++ [(t.key, hsh)], acc1.manifests ++ [(t.key, E)],
             acc1.statuses ++ [(t.key,
               if isCacheMiss false (ManifestResult.built E s hh dc hsh)
               then TaskStatus.successEager else TaskStatus.successLazy)],
             acc1.totalHashed + hh⟩ rest).manifests t.key) =
          Except.ok (ManifestResult.built E (s + hh) 0 false hsh) := by
        rw [h2k, hlook]
        exact hidem
      rw [runTasksAux_cons_built false _ acc2 t rest E (s + hh) 0 false hsh hcm2]
      have hfresh2 : ∀ u ∈ rest, ∀ m ∈ acc1.manifests ++ [(t.key, E)], m.1 ≠ u.key := by
        intro u hu m hm
        rcases List.mem_append.mp hm with hm | hm
        · exact hfresh u (List.mem_cons_of_mem t hu) m hm
        · rcases List.mem_cons.mp hm with hm | hm
          · rw [hm]
            intro hcon
            apply hknotin
            have hck : t.key = u.key := hcon
            rw [hck]
            exact List.mem_map_of_mem (fun x => x.key) hu
          · exact absurd hm (List.not_mem_nil m)
      have IH := runTasksAux_idem_master rest
        ⟨acc1.keys ++ [(t.key, hsh)], acc1.manifests ++ [(t.key, E)],
         acc1.statuses ++ [(t.key,
           if isCacheMiss false (ManifestResult.built E s hh dc hsh)
           then TaskStatus.successEager else TaskStatus.successLazy)],
         acc1.totalHashed + hh⟩
        ⟨acc2.keys ++ [(t.key, hsh)], acc2.manifests ++ [(t.key, E)],
         acc2.statuses ++ [(t.key,
           if isCacheMiss false (ManifestResult.built E (s + hh) 0 false hsh)
           then TaskStatus.successEager else TaskStatus.successLazy)],
         acc2.totalHashed + 0⟩
        prevM1 (by rw [h2k]) (by rw [h2m])
        (fun u hu => hok u (List.mem_cons_of_mem t hu))
        (fun u hu => hnd u (List.mem_cons_of_mem t hu))
        hkrest hfresh2
      obtain ⟨ihk, ihm, ihh, ihs⟩ := IH
      refine ⟨ihk, ihm, ?_, ?_⟩
      · rw [ihh]
        rfl
      · intro p hp
        rcases ihs p hp with hp2 | hl
        · rcases List.mem_append.mp hp2 with hp2 | hp2
          · exact Or.inl hp2
          · rcases List.mem_cons.mp hp2 with hp2 | hp2
            · refine Or.inr ?_
              rw [hp2]
              rfl
            · exact absurd hp2 (List.not_mem_nil p)
        · exact Or.inr hl

/-! ## Claim theorems -/

/-- Claim C1 (code bug, evaluated at the failing input): the claim says
compareManifestTypes ranks "upstream task inputs" strictly before
"upstream package inputs".  The code returns 1 on that pair (and -1 on the
swapped pair): "upstream package inputs" does not occur in the order array, so
its jsIndexOf is -1 and it sorts before every listed type, while the slot
between "upstream task inputs" and "env var" is occupied by the dead label
"dependency task inputs", which computeManifest never emits. -/
theorem compareManifestTypes_package_ranks_first :
    compareManifestTypes "upstream task inputs" "upstream package inputs" = 1 ∧
    compareManifestTypes "upstream package inputs" "upstream task inputs" = -1 ∧
    jsIndexOf order "upstream package inputs" = -1 ∧
    "dependency task inputs" ∈ order := by decide

/-- Claim C3: for a task with cache "none", computeManifest returns null at
its first statement: no directory is created, no ManifestConstructor is
constructed, nothing is written, and the scheduler treats the task as a
cache miss (it always runs). -/
theorem computeManifest_cache_none_no_effects (ctx : ScheduledTaskCtx)
    (prev : Option (List ManifestEntry))
    (hnone : ctx.rawCache = Option.some RawCache.noneLiteral) :
    computeManifest ctx prev = Except.ok ManifestResult.noCache ∧
    computeManifestEffects ctx prev = [] ∧
    isCacheMiss false ManifestResult.noCache = true := by
  have hcg : cacheGetter ctx.rawCache = CacheSetting.noCache := by
    rw [hnone]
    rfl
  refine ⟨?_, ?_, rfl⟩
  · unfold computeManifest
    rw [hcg]
  · unfold computeManifestEffects
    rw [hcg]

theorem computeManifest_cache_none_no_effects_witness :
    computeManifest ctxCacheNone Option.none = Except.ok ManifestResult.noCache ∧
    computeManifestEffects ctxCacheNone Option.none = [] ∧
    isCacheMiss false ManifestResult.noCache = true :=
  computeManifest_cache_none_no_effects ctxCacheNone Option.none rfl

/-- A runsAfter entry whose upstream exists with inheritsInput set but whose
cache key is missing makes the runsAfter loop throw, wherever it sits. -/
theorem processRunsAfter_error_of_bad (ctx : ScheduledTaskCtx) :
    ∀ (l : List (String × DepConfig)) (st : RAState),
      (∃ e ∈ l, e.2.inheritsInput = true ∧
        ∃ d, ctx.allTasks (raKeyOf ctx e.1) = Option.some d ∧
          d.inputManifestCacheKey = Option.none) →
      ∃ msg, processRunsAfter ctx st l = Except.error msg
  | [], _, hbad => by
      obtain ⟨e, he, _⟩ := hbad
      exact absurd he (List.not_mem_nil e)
  | e0 :: rest, st, hbad => by
      obtain ⟨e, he, hinh, d, hat, hkey⟩ := hbad
      rcases List.mem_cons.mp he with heq | he
      · subst heq
        have hskip : (!e.2.inheritsInput && e.2.usesOutput == Option.some false) = false := by
          rw [hinh]
          rfl
        have hent := praeNoKey ctx st e d hskip hat hinh hkey
        unfold processRunsAfter
        rw [hent]
        exact ⟨_, rfl⟩
      · unfold processRunsAfter
        cases hE : processRunsAfterEntry ctx st e0 with
        | error msg => exact ⟨msg, rfl⟩
        | ok st1 =>
            exact processRunsAfter_error_of_bad ctx rest st1 ⟨e, he, hinh, d, hat, hkey⟩

/-- A local-dependency task key whose node exists but has no cache key makes
the package-dependency loop throw, wherever it sits. -/
theorem processPkgDeps_error_of_bad (ctx : ScheduledTaskCtx) :
    ∀ (keys : List String) (entries : List ManifestEntry),
      (∃ k ∈ keys, ∃ d, ctx.allTasks k = Option.some d ∧
        d.inputManifestCacheKey = Option.none) →
      ∃ msg, processPkgDeps ctx entries keys = Except.error msg
  | [], _, hbad => by
      obtain ⟨k, hk, _⟩ := hbad
      exact absurd hk (List.not_mem_nil k)
  | k0 :: rest, entries, hbad => by
      obtain ⟨k, hk, d, hat, hkey⟩ := hbad
      rcases List.mem_cons.mp hk with heq | hk
      · subst heq
        unfold processPkgDeps
        simp only [hat, hkey]
        exact ⟨_, rfl⟩
      · cases hA : ctx.allTasks k0 with
        | none =>
            have hstep : processPkgDeps ctx entries (k0 :: rest) =
                processPkgDeps ctx entries rest := by
              simp only [processPkgDeps, hA]
            rw [hstep]
            exact processPkgDeps_error_of_bad ctx rest entries ⟨k, hk, d, hat, hkey⟩
        | some d0 =>
            cases hK : d0.inputManifestCacheKey with
            | none =>
                have hstep : processPkgDeps ctx entries (k0 :: rest) =
                    Except.error
                      ("Missing inputManifestCacheKey for task: " ++ k0 ++ ".") := by
                  simp only [processPkgDeps, hA, hK]
                exact ⟨_, hstep⟩
            | some v =>
                have hstep : processPkgDeps ctx entries (k0 :: rest) =
                    processPkgDeps ctx
                      (entries ++ [⟨"upstream package inputs", k0, v, Option.none⟩])
                      rest := by
                  simp only [processPkgDeps, hA, hK]
                rw [hstep]
                exact processPkgDeps_error_of_bad ctx rest
                  (entries ++ [⟨"upstream package inputs", k0, v, Option.none⟩])
                  ⟨k, hk, d, hat, hkey⟩

/-- Claim C4: if an upstream referenced via runsAfter with inheritsInput, or
via package-dependency inheritance, exists but has no inputManifestCacheKey,
computeManifest throws (it never emits an entry for it or continues
silently); the exception propagates out of computeManifest unmasked. -/
theorem computeManifest_missing_upstream_key_errors (ctx : ScheduledTaskCtx)
    (prev : Option (List ManifestEntry))
    (hcacheable : cacheGetter ctx.rawCache ≠ CacheSetting.noCache)
    (hbad :
      (∃ e ∈ ctx.runsAfter, e.2.inheritsInput = true ∧
        ∃ d, ctx.allTasks (raKeyOf ctx e.1) = Option.some d ∧
          d.inputManifestCacheKey = Option.none) ∨
      (∃ keys, upstreamTaskKeys ctx = Option.some keys ∧
        ∃ k ∈ keys, ∃ d, ctx.allTasks k = Option.some d ∧
          d.inputManifestCacheKey = Option.none)) :
    ∃ msg, computeManifest ctx prev = Except.error msg := by
  unfold computeManifest
  cases hcg : cacheGetter ctx.rawCache with
  | noCache => exact absurd hcg hcacheable
  | cfg c =>
      rcases hbad with hbad | ⟨keys, hkeys, hbadk⟩
      · obtain ⟨msg, hra⟩ := processRunsAfter_error_of_bad ctx ctx.runsAfter ⟨[], []⟩ hbad
        exact ⟨msg, by simp only [hra]⟩
      · cases hra : processRunsAfter ctx ⟨[], []⟩ ctx.runsAfter with
        | error msg => exact ⟨msg, rfl⟩
        | ok ra =>
            obtain ⟨msg, hpk⟩ := processPkgDeps_error_of_bad ctx keys ra.entries hbadk
            exact ⟨msg, by simp only [hkeys, hpk]⟩

theorem computeManifest_missing_upstream_key_errors_witness :
    ∃ msg, computeManifest ctxMissingKey Option.none = Except.error msg :=
  computeManifest_missing_upstream_key_errors ctxMissingKey Option.none
    (by decide)
    (Or.inl ⟨("codegen", ⟨true, Option.none⟩), by decide, rfl,
      ⟨⟨Option.none, []⟩, by decide, rfl⟩⟩)

/-- Claim C10: a runsAfter entry whose named task has no node is handled
asymmetrically by the declared runType of the named task: top-level and
absent throws; non-top-level and absent is silently skipped (no entry, no
extra files, no error); and an entry with inheritsInput false and
usesOutput === false is skipped up front, with no lookup: the result is ok
unchanged for every graph whatsoever. -/
theorem processRunsAfterEntry_missing_node_asymmetry :
    (∀ (ctx : ScheduledTaskCtx) (st : RAState) (name : String) (dc : DepConfig),
      (!dc.inheritsInput && dc.usesOutput == Option.some false) = false →
      ctx.runTypeIsTopLevel name = true →
      ctx.allTasks (raKeyOf ctx name) = Option.none →
      processRunsAfterEntry ctx st (name, dc) =
        Except.error ("Missing task: " ++ raKeyOf ctx name ++ ".")) ∧
    (∀ (ctx : ScheduledTaskCtx) (st : RAState) (name : String) (dc : DepConfig),
      ctx.runTypeIsTopLevel name = false →
      ctx.allTasks (raKeyOf ctx name) = Option.none →
      processRunsAfterEntry ctx st (name, dc) = Except.ok st) ∧
    (∀ (ctx : ScheduledTaskCtx) (st : RAState) (name : String) (dc : DepConfig),
      dc.inheritsInput = false → dc.usesOutput = Option.some false →
      processRunsAfterEntry ctx st (name, dc) = Except.ok st) := by
  refine ⟨?_, ?_, ?_⟩
  · intro ctx st name dc hskip htop hat
    exact praeMissingTop ctx st (name, dc) hskip htop hat
  · intro ctx st name dc htop hat
    cases hskip : (!dc.inheritsInput && dc.usesOutput == Option.some false) with
    | true => exact praeSkip ctx st (name, dc) hskip
    | false => exact praeMissingNonTop ctx st (name, dc) hskip htop hat
  · intro ctx st name dc hinh huse
    refine praeSkip ctx st (name, dc) ?_
    rw [hinh, huse]
    rfl

theorem processRunsAfterEntry_missing_node_asymmetry_witness :
    processRunsAfterEntry ctxTopMissing ⟨[], []⟩ ("codegen", ⟨true, Option.none⟩) =
      Except.error ("Missing task: " ++ raKeyOf ctxTopMissing "codegen" ++ ".") ∧
    processRunsAfterEntry ctxNoNode ⟨[], []⟩ ("codegen", ⟨true, Option.none⟩) =
      Except.ok ⟨[], []⟩ ∧
    processRunsAfterEntry ctxNoNode ⟨[], []⟩ ("codegen", ⟨false, Option.some false⟩) =
      Except.ok ⟨[], []⟩ :=
  ⟨processRunsAfterEntry_missing_node_asymmetry.1 ctxTopMissing ⟨[], []⟩
      "codegen" ⟨true, Option.none⟩ rfl rfl rfl,
   processRunsAfterEntry_missing_node_asymmetry.2.1 ctxNoNode ⟨[], []⟩
      "codegen" ⟨true, Option.none⟩ rfl rfl,
   processRunsAfterEntry_missing_node_asymmetry.2.2 ctxNoNode ⟨[], []⟩
      "codegen" ⟨false, Option.some false⟩ rfl rfl⟩

theorem stepEntry_of_lookup_neg (ctx : ScheduledTaskCtx)
    (prevL : List ManifestEntry) (f : String) (p : ManifestEntry)
    (hl : lookupPrev prevL "file" f = Option.some p)
    (hb : (p.meta == Option.some (ctx.fileStat f).mtimeMs) = false) :
    stepEntry ctx prevL f =
      ⟨"file", f, hashFile (ctx.fileStat f).content,
       Option.some (ctx.fileStat f).mtimeMs⟩ := by
  unfold stepEntry
  rw [hl]
  simp [hb]

theorem stepEntry_of_lookup_none (ctx : ScheduledTaskCtx)
    (prevL : List ManifestEntry) (f : String)
    (hl : lookupPrev prevL "file" f = Option.none) :
    stepEntry ctx prevL f =
      ⟨"file", f, hashFile (ctx.fileStat f).content,
       Option.some (ctx.fileStat f).mtimeMs⟩ := by
  unfold stepEntry
  rw [hl]

theorem copiesLine_of_lookup_none (ctx : ScheduledTaskCtx)
    (prevL : List ManifestEntry) (f : String)
    (hl : lookupPrev prevL "file" f = Option.none) :
    copiesLine ctx prevL f = false := by
  unfold copiesLine
  rw [hl]

/-- Claim C5: for every input file, processed in sorted order: when the
previous manifest holds a "file" entry with the same path whose metadata
equals the current mtime string, the previous hash is copied and the file
content is never read (the file is absent from hashedFiles); otherwise the
content is hashed and a fresh entry with the current mtime is appended. -/
theorem processFiles_mtime_fast_path (ctx : ScheduledTaskCtx)
    (prev : Option (List ManifestEntry)) (files : List String) (f : String)
    (hmem : f ∈ files) (hnd : files.Nodup) :
    ∃ e ∈ (processFiles ctx prev ⟨[], 0, 0, []⟩ files).entries,
      e.type = "file" ∧ e.id = f ∧
      e.meta = Option.some (ctx.fileStat f).mtimeMs ∧
      (match lookupPrev (prev.getD []) "file" f with
       | Option.some p =>
           (p.meta = Option.some (ctx.fileStat f).mtimeMs →
             e.hash = p.hash ∧
             f ∉ (processFiles ctx prev ⟨[], 0, 0, []⟩ files).hashedFiles) ∧
           (p.meta ≠ Option.some (ctx.fileStat f).mtimeMs →
             e.hash = hashFile (ctx.fileStat f).content ∧
             f ∈ (processFiles ctx prev ⟨[], 0, 0, []⟩ files).hashedFiles)
       | Option.none =>
           e.hash = hashFile (ctx.fileStat f).content ∧
           f ∈ (processFiles ctx prev ⟨[], 0, 0, []⟩ files).hashedFiles) := by
  obtain ⟨ht, hi, hm⟩ := stepEntry_type ctx (prev.getD []) f
  rw [processFiles_eq]
  refine ⟨stepEntry ctx (prev.getD []) f, ?_, ht, hi, hm, ?_⟩
  · show stepEntry ctx (prev.getD []) f ∈
      [] ++ files.map (stepEntry ctx (prev.getD []))
    rw [List.nil_append]
    exact List.mem_map_of_mem _ hmem
  · have hhf : ∀ g : String,
        g ∈ ([] : List String) ++
            files.filter (fun x => !copiesLine ctx (prev.getD []) x) ↔
          g ∈ files ∧ copiesLine ctx (prev.getD []) g = false := by
      intro g
      rw [List.nil_append, List.mem_filter]
      simp
    cases hl : lookupPrev (prev.getD []) "file" f with
    | some p =>
        constructor
        · intro hpm
          have hb : (p.meta == Option.some (ctx.fileStat f).mtimeMs) = true := by
            simp [hpm]
          constructor
          · rw [stepEntry_of_lookup ctx (prev.getD []) f p hl hb]
          · intro hcon
            have hmemf := (hhf f).mp hcon
            rw [copiesLine_of_lookup ctx (prev.getD []) f p hl, hb] at hmemf
            exact absurd hmemf.2 (by simp)
        · intro hpm
          have hb : (p.meta == Option.some (ctx.fileStat f).mtimeMs) = false := by
            simpa using hpm
          constructor
          · rw [stepEntry_of_lookup_neg ctx (prev.getD []) f p hl hb]
          · refine (hhf f).mpr ⟨hmem, ?_⟩
            rw [copiesLine_of_lookup ctx (prev.getD []) f p hl, hb]
    | none =>
        constructor
        · rw [stepEntry_of_lookup_none ctx (prev.getD []) f hl]
        · refine (hhf f).mpr ⟨hmem, ?_⟩
          exact copiesLine_of_lookup_none ctx (prev.getD []) f hl

theorem processFiles_mtime_fast_path_witness :
    ∃ e ∈ (processFiles ctxFiles (Option.some prevFiles) ⟨[], 0, 0, []⟩
        ["packages/core/a.txt", "packages/core/b.txt"]).entries,
      e.type = "file" ∧ e.id = "packages/core/a.txt" ∧
      e.meta = Option.some (ctxFiles.fileStat "packages/core/a.txt").mtimeMs ∧
      (match lookupPrev ((Option.some prevFiles).getD []) "file" "packages/core/a.txt" with
       | Option.some p =>
           (p.meta = Option.some (ctxFiles.fileStat "packages/core/a.txt").mtimeMs →
             e.hash = p.hash ∧
             "packages/core/a.txt" ∉ (processFiles ctxFiles (Option.some prevFiles)
               ⟨[], 0, 0, []⟩ ["packages/core/a.txt", "packages/core/b.txt"]).hashedFiles) ∧
           (p.meta ≠ Option.some (ctxFiles.fileStat "packages/core/a.txt").mtimeMs →
             e.hash = hashFile (ctxFiles.fileStat "packages/core/a.txt").content ∧
             "packages/core/a.txt" ∈ (processFiles ctxFiles (Option.some prevFiles)
               ⟨[], 0, 0, []⟩ ["packages/core/a.txt", "packages/core/b.txt"]).hashedFiles)
       | Option.none =>
           e.hash = hashFile (ctxFiles.fileStat "packages/core/a.txt").content ∧
           "packages/core/a.txt" ∈ (processFiles ctxFiles (Option.some prevFiles)
             ⟨[], 0, 0, []⟩ ["packages/core/a.txt", "packages/core/b.txt"]).hashedFiles) :=
  processFiles_mtime_fast_path ctxFiles (Option.some prevFiles)
    ["packages/core/a.txt", "packages/core/b.txt"] "packages/core/a.txt"
    (by decide) (by decide)

/-- Claim C6: the "env var" section of a manifest holds exactly one entry per
name in the sorted deduplicated union of the base cache env inputs (default
empty) and the task cache env inputs (default empty), in strictly ascending
name order, each hashing the value with "" substituted when unset. -/
theorem envEntries_sorted_unique_union (ctx : ScheduledTaskCtx) :
    envEntries ctx = (sortStrings (uniq
        ((getBaseCacheConfig ctx.baseCacheConfigRaw).envInputs ++
          taskEnvInputsOf ctx))).map
        (fun n => ⟨"env var", n, hashString ((ctx.env n).getD ""), Option.none⟩) ∧
    ((envEntries ctx).map (fun e => e.id)).Pairwise (· < ·) ∧
    (∀ n : String, n ∈ (envEntries ctx).map (fun e => e.id) ↔
      (n ∈ (getBaseCacheConfig ctx.baseCacheConfigRaw).envInputs ∨
        n ∈ taskEnvInputsOf ctx)) ∧
    (∀ e ∈ envEntries ctx, e.type = "env var" ∧
      e.hash = hashString ((ctx.env e.id).getD "") ∧ e.meta = Option.none) := by
  have hids : (envEntries ctx).map (fun e => e.id) = allEnvVars ctx := by
    unfold envEntries
    rw [List.map_map]
    have hcm : ((fun e : ManifestEntry => e.id) ∘ fun envVar =>
        (⟨"env var", envVar, hashString ((ctx.env envVar).getD ""),
          Option.none⟩ : ManifestEntry)) = fun n => n := rfl
    rw [hcm]
    exact List.map_id' (allEnvVars ctx)
  refine ⟨rfl, ?_, ?_, ?_⟩
  · rw [hids]
    have hle : (allEnvVars ctx).Pairwise (· ≤ ·) := pairwise_sortStrings _
    have hnd : (allEnvVars ctx).Nodup := nodup_sortStrings _ (nodup_uniq _)
    exact (hle.and hnd).imp fun hab => lt_of_le_of_ne hab.1 hab.2
  · intro n
    rw [hids]
    unfold allEnvVars
    rw [mem_sortStrings, mem_uniq, List.mem_append]
  · intro e he
    rcases List.mem_map.mp he with ⟨v, _, rfl⟩
    exact ⟨rfl, rfl, rfl⟩

theorem envEntries_sorted_unique_union_witness :
    (⟨"env var", "A", hashString ((ctxEnv.env "A").getD ""), Option.none⟩ :
        ManifestEntry).type = "env var" ∧
    (⟨"env var", "A", hashString ((ctxEnv.env "A").getD ""), Option.none⟩ :
        ManifestEntry).hash =
      hashString ((ctxEnv.env (⟨"env var", "A",
        hashString ((ctxEnv.env "A").getD ""), Option.none⟩ :
          ManifestEntry).id).getD "") ∧
    (⟨"env var", "A", hashString ((ctxEnv.env "A").getD ""), Option.none⟩ :
        ManifestEntry).meta = Option.none :=
  (envEntries_sorted_unique_union ctxEnv).2.2.2
    ⟨"env var", "A", hashString ((ctxEnv.env "A").getD ""), Option.none⟩
    (by
      have h1 : "A" ∈ allEnvVars ctxEnv := by
        unfold allEnvVars
        rw [mem_sortStrings, mem_uniq]
        have hb : (getBaseCacheConfig ctxEnv.baseCacheConfigRaw).envInputs =
            ["B", "A"] := rfl
        have ht : taskEnvInputsOf ctxEnv = ["A", "C"] := rfl
        rw [hb, ht]
        simp
      exact List.mem_map_of_mem _ h1)

/-- envEntries reads the environment only through (env n).getD "". -/
theorem envEntries_env_congr (ctx : ScheduledTaskCtx)
    (e2 : String → Option String)
    (hagree : ∀ n, (ctx.env n).getD "" = (e2 n).getD "") :
    envEntries { ctx with env := e2 } = envEntries ctx := by
  unfold envEntries
  have hae : allEnvVars { ctx with env := e2 } = allEnvVars ctx := rfl
  rw [hae]
  refine List.map_congr_left ?_
  intro n _
  have h1 : ({ ctx with env := e2 }).env n = e2 n := rfl
  rw [h1, ← hagree n]

theorem processRunsAfter_env (ctx : ScheduledTaskCtx)
    (e2 : String → Option String) :
    ∀ (l : List (String × DepConfig)) (st : RAState),
      processRunsAfter { ctx with env := e2 } st l = processRunsAfter ctx st l
  | [], _ => rfl
  | e :: rest, st => by
      have hentry : processRunsAfterEntry { ctx with env := e2 } st e =
          processRunsAfterEntry ctx st e := rfl
      conv_lhs => rw [processRunsAfter]
      conv_rhs => rw [processRunsAfter]
      rw [hentry]
      cases processRunsAfterEntry ctx st e with
      | error msg => rfl
      | ok st1 => exact processRunsAfter_env ctx e2 rest st1

theorem processPkgDeps_env (ctx : ScheduledTaskCtx)
    (e2 : String → Option String) :
    ∀ (keys : List String) (entries : List ManifestEntry),
      processPkgDeps { ctx with env := e2 } entries keys =
        processPkgDeps ctx entries keys
  | [], _ => rfl
  | k :: rest, entries => by
      cases hat : ctx.allTasks k with
      | none =>
          have h1 : processPkgDeps { ctx with env := e2 } entries (k :: rest) =
              processPkgDeps { ctx with env := e2 } entries rest := by
            simp only [processPkgDeps, hat]
          have h2 : processPkgDeps ctx entries (k :: rest) =
              processPkgDeps ctx entries rest := by
            simp only [processPkgDeps, hat]
          rw [h1, h2]
          exact processPkgDeps_env ctx e2 rest entries
      | some d =>
          cases hkey : d.inputManifestCacheKey with
          | none =>
              have h1 : processPkgDeps { ctx with env := e2 } entries (k :: rest) =
                  Except.error
                    ("Missing inputManifestCacheKey for task: " ++ k ++ ".") := by
                simp only [processPkgDeps, hat, hkey]
              have h2 : processPkgDeps ctx entries (k :: rest) =
                  Except.error
                    ("Missing inputManifestCacheKey for task: " ++ k ++ ".") := by
                simp only [processPkgDeps, hat, hkey]
              rw [h1, h2]
          | some v =>
              have h1 : processPkgDeps { ctx with env := e2 } entries (k :: rest) =
                  processPkgDeps { ctx with env := e2 }
                    (entries ++ [⟨"upstream package inputs", k, v, Option.none⟩])
                    rest := by
                simp only [processPkgDeps, hat, hkey]
              have h2 : processPkgDeps ctx entries (k :: rest) =
                  processPkgDeps ctx
                    (entries ++ [⟨"upstream package inputs", k, v, Option.none⟩])
                    rest := by
                simp only [processPkgDeps, hat, hkey]
              rw [h1, h2]
              exact processPkgDeps_env ctx e2 rest
                (entries ++ [⟨"upstream package inputs", k, v, Option.none⟩])

theorem processFiles_env (ctx : ScheduledTaskCtx)
    (e2 : String → Option String) (prev : Option (List ManifestEntry))
    (files : List String) (st : FState) :
    processFiles { ctx with env := e2 } prev st files =
      processFiles ctx prev st files := by
  have hse : stepEntry { ctx with env := e2 } = stepEntry ctx := rfl
  have hcl : copiesLine { ctx with env := e2 } = copiesLine ctx := rfl
  rw [processFiles_eq, processFiles_eq, hse, hcl]

theorem upstreamTaskKeys_env (ctx : ScheduledTaskCtx)
    (e2 : String → Option String) :
    upstreamTaskKeys { ctx with env := e2 } = upstreamTaskKeys ctx := rfl

theorem computeManifest_env_congr (ctx : ScheduledTaskCtx)
    (e2 : String → Option String) (prev : Option (List ManifestEntry))
    (hagree : ∀ n, (ctx.env n).getD "" = (e2 n).getD "") :
    computeManifest { ctx with env := e2 } prev = computeManifest ctx prev := by
  unfold computeManifest
  simp only [upstreamTaskKeys_env ctx e2, processRunsAfter_env ctx e2,
    processPkgDeps_env ctx e2, envEntries_env_congr ctx e2 hagree,
    processFiles_env ctx e2 prev]

/-- Claim C9: the manifest entry for an env var name is a function of the
value with "" substituted when unset, so an unset variable and a variable
set to the empty string produce identical entries; consequently any two
environments that agree under that substitution give byte-identical
manifests and the same cache decision. -/
theorem envVar_unset_matches_empty (ctx : ScheduledTaskCtx)
    (e2 : String → Option String) (prev : Option (List ManifestEntry))
    (hagree : ∀ n, (ctx.env n).getD "" = (e2 n).getD "") :
    envEntries { ctx with env := e2 } = envEntries ctx ∧
    computeManifest { ctx with env := e2 } prev = computeManifest ctx prev :=
  ⟨envEntries_env_congr ctx e2 hagree,
   computeManifest_env_congr ctx e2 prev hagree⟩

theorem envVar_unset_matches_empty_witness :
    envEntries { ctxEnv with env := fun _ => Option.some "" } = envEntries ctxEnv ∧
    computeManifest { ctxEnv with env := fun _ => Option.some "" } Option.none =
      computeManifest ctxEnv Option.none :=
  envVar_unset_matches_empty ctxEnv (fun _ => Option.some "") Option.none
    (fun _ => rfl)

/-- Claim C7: the run command exits 0 exactly on an all-success run
(including the all-lazy case), and exits non-zero both when some task failed
and when no task matched the requested name (the empty graph). -/
theorem runCommandExitCode_spec :
    (∀ tasks : List (String × TaskStatus), tasks ≠ [] →
      (∀ p ∈ tasks, p.2 = TaskStatus.successEager ∨ p.2 = TaskStatus.successLazy) →
      runCommandExitCode tasks = 0) ∧
    (∀ tasks : List (String × TaskStatus),
      (∃ p ∈ tasks, p.2 = TaskStatus.failure) → runCommandExitCode tasks ≠ 0) ∧
    runCommandExitCode [] ≠ 0 := by
  refine ⟨?_, ?_, by decide⟩
  · intro tasks hne hall
    have hlen : ¬ tasks.length = 0 := by
      cases tasks with
      | nil => exact absurd rfl hne
      | cons q qs => simp
    have hfail : allFailedTasks tasks = [] := by
      unfold allFailedTasks
      rw [filter_eq_nil_of _ tasks ?_]
      · rfl
      · intro p hp
        rcases hall p hp with h | h <;> rw [h] <;> rfl
    unfold runCommandExitCode
    rw [if_neg hlen, hfail]
    simp
  · intro tasks hex
    obtain ⟨p, hp, hf⟩ := hex
    have hmemf : p.1 ∈ allFailedTasks tasks := by
      unfold allFailedTasks
      refine List.mem_map_of_mem _ ?_
      rw [List.mem_filter]
      refine ⟨hp, ?_⟩
      rw [hf]
      rfl
    have hlen2 : 0 < (allFailedTasks tasks).length :=
      List.length_pos.mpr (List.ne_nil_of_mem hmemf)
    have hlen : ¬ tasks.length = 0 := by
      cases tasks with
      | nil => exact absurd hp (List.not_mem_nil p)
      | cons q qs => simp
    unfold runCommandExitCode
    rw [if_neg hlen, if_pos hlen2]
    simp

theorem runCommandExitCode_spec_witness :
    runCommandExitCode [("build::<rootDir>", TaskStatus.successLazy)] = 0 ∧
    runCommandExitCode [("build::<rootDir>", TaskStatus.failure)] ≠ 0 ∧
    runCommandExitCode [] ≠ 0 :=
  ⟨runCommandExitCode_spec.1 [("build::<rootDir>", TaskStatus.successLazy)]
      (by decide) (by decide),
   runCommandExitCode_spec.2.1 [("build::<rootDir>", TaskStatus.failure)]
      ⟨("build::<rootDir>", TaskStatus.failure), by decide, rfl⟩,
   runCommandExitCode_spec.2.2⟩

/-- Claim C8: finding more than one lazy.config.* file in one directory is a
fatal configuration error: getConfigFromDir reports it and the process exits
non-zero before the runner is reached; zero matching files proceed with the
empty default configuration. -/
theorem getConfigFromDir_multiple_fatal_zero_default :
    (∀ (files : List String) (load : String → Option LazyConfigRaw)
      (allTasks : List (String × TaskStatus)),
      files.length > 1 →
      getConfigFromDir files load =
        Except.error (ConfigError.multipleConfigFiles files) ∧
      lazyRunPipeline files load allTasks = (1, false)) ∧
    (∀ load : String → Option LazyConfigRaw,
      getConfigFromDir [] load = Except.ok ⟨Option.none, emptyLazyConfig⟩) := by
  constructor
  · intro files load allTasks hgt
    have h1 : getConfigFromDir files load =
        Except.error (ConfigError.multipleConfigFiles files) := by
      unfold getConfigFromDir
      rw [if_pos hgt]
    refine ⟨h1, ?_⟩
    unfold lazyRunPipeline
    rw [h1]
  · intro load
    rfl

theorem getConfigFromDir_multiple_fatal_zero_default_witness :
    (getConfigFromDir ["lazy.config.js", "lazy.config.json"]
        (fun _ => Option.none) =
      Except.error (ConfigError.multipleConfigFiles
        ["lazy.config.js", "lazy.config.json"]) ∧
     lazyRunPipeline ["lazy.config.js", "lazy.config.json"]
        (fun _ => Option.none) [] = (1, false)) ∧
    getConfigFromDir [] (fun _ => Option.none) =
      Except.ok ⟨Option.none, emptyLazyConfig⟩ :=
  ⟨getConfigFromDir_multiple_fatal_zero_default.1
      ["lazy.config.js", "lazy.config.json"] (fun _ => Option.none) []
      (by decide),
   getConfigFromDir_multiple_fatal_zero_default.2 (fun _ => Option.none)⟩

/-- Claim C2 as stated is false on the code: a workspace containing a task
with cache "none" re-executes that task on the second of two identical runs
(status success-eager, one command executed), so "every task in the second
run ends in status success:lazy" fails.  Evaluated at a one-task workspace
whose only task has cache "none". -/
theorem second_run_not_all_lazy_with_cache_none :
    (runTasks false (lookupAssoc (runTasks false (fun _ => Option.none)
        [taskCacheNone]).manifests) [taskCacheNone]).statuses =
      [("build::packages/core", TaskStatus.successEager)] ∧
    ¬ (∀ p ∈ (runTasks false (lookupAssoc (runTasks false (fun _ => Option.none)
        [taskCacheNone]).manifests) [taskCacheNone]).statuses,
        p.2 = TaskStatus.successLazy) := by
  constructor
  · rfl
  · intro hall
    have hmem : ("build::packages/core", TaskStatus.successEager) ∈
        (runTasks false (lookupAssoc (runTasks false (fun _ => Option.none)
          [taskCacheNone]).manifests) [taskCacheNone]).statuses := by
      rw [show (runTasks false (lookupAssoc (runTasks false (fun _ => Option.none)
          [taskCacheNone]).manifests) [taskCacheNone]).statuses =
        [("build::packages/core", TaskStatus.successEager)] from rfl]
      exact List.mem_cons_self _ _
    have h := hall ("build::packages/core", TaskStatus.successEager) hmem
    exact absurd h (by decide)

/-- Claim C2 (amended): over tasks whose cache is enabled and whose manifest
computation succeeds (computeManifest returns a built manifest for every
previous-manifest state), two back-to-back runs with no intervening changes
produce identical (hence byte-identical once serialized) manifests and cache
keys, the second run hashes zero file contents, and every task in the second
run ends success-lazy.  Tasks with cache "none" are excluded: the code always
re-runs them (see the counterexample). -/
theorem runTasks_idempotent (tasks : List TaskSpec)
    (prev0 : String → Option (List ManifestEntry))
    (hkeys : (tasks.map fun t => t.key).Nodup)
    (hok : ∀ t ∈ tasks, ∀ keyf prev, ∃ E s hh dc hsh,
      computeManifest (t.ctxOf keyf) prev =
        Except.ok (ManifestResult.built E s hh dc hsh))
    (hnd : ∀ t ∈ tasks, ∀ keyf extra fs,
      (t.ctxOf keyf).getInputFiles extra = Option.some fs → fs.Nodup) :
    (runTasks false (lookupAssoc (runTasks false prev0 tasks).manifests)
        tasks).manifests = (runTasks false prev0 tasks).manifests ∧
    ((runTasks false (lookupAssoc (runTasks false prev0 tasks).manifests)
        tasks).manifests.map (fun p => (p.1, serializeManifest p.2))) =
      ((runTasks false prev0 tasks).manifests.map
        (fun p => (p.1, serializeManifest p.2))) ∧
    (runTasks false (lookupAssoc (runTasks false prev0 tasks).manifests)
        tasks).keys = (runTasks false prev0 tasks).keys ∧
    (runTasks false (lookupAssoc (runTasks false prev0 tasks).manifests)
        tasks).totalHashed = 0 ∧
    (∀ p ∈ (runTasks false (lookupAssoc (runTasks false prev0 tasks).manifests)
        tasks).statuses, p.2 = TaskStatus.successLazy) := by
  obtain ⟨hk, hm, hh, hs⟩ := runTasksAux_idem_master tasks
    ⟨[], [], [], 0⟩ ⟨[], [], [], 0⟩ prev0 rfl rfl hok hnd hkeys
    (fun _ _ m hm2 => absurd hm2 (List.not_mem_nil m))
  refine ⟨hm,
    congrArg (fun l => l.map (fun p => (p.1, serializeManifest p.2))) hm,
    hk, hh, ?_⟩
  intro p hp
  rcases hs p hp with hin | hl
  · exact absurd hin (List.not_mem_nil p)
  · exact hl

theorem runTasks_idempotent_witness :
    (runTasks false (lookupAssoc (runTasks false (fun _ => Option.none)
        [taskIdem]).manifests) [taskIdem]).manifests =
      (runTasks false (fun _ => Option.none) [taskIdem]).manifests ∧
    ((runTasks false (lookupAssoc (runTasks false (fun _ => Option.none)
        [taskIdem]).manifests) [taskIdem]).manifests.map
        (fun p => (p.1, serializeManifest p.2))) =
      ((runTasks false (fun _ => Option.none) [taskIdem]).manifests.map
        (fun p => (p.1, serializeManifest p.2))) ∧
    (runTasks false (lookupAssoc (runTasks false (fun _ => Option.none)
        [taskIdem]).manifests) [taskIdem]).keys =
      (runTasks false (fun _ => Option.none) [taskIdem]).keys ∧
    (runTasks false (lookupAssoc (runTasks false (fun _ => Option.none)
        [taskIdem]).manifests) [taskIdem]).totalHashed = 0 ∧
    (∀ p ∈ (runTasks false (lookupAssoc (runTasks false (fun _ => Option.none)
        [taskIdem]).manifests) [taskIdem]).statuses,
      p.2 = TaskStatus.successLazy) :=
  runTasks_idempotent [taskIdem] (fun _ => Option.none)
    (by decide)
    (by
      intro t ht keyf prev
      rcases List.mem_singleton.mp ht with rfl
      exact ⟨[], 0, 0, endDidChange prev [], manifestHash [], rfl⟩)
    (by
      intro t ht keyf extra fs h
      rcases List.mem_singleton.mp ht with rfl
      have h2 : Option.some ([] : List String) = Option.some fs := h
      cases h2
      exact List.nodup_nil)

end Lazyrepo
